import Mathlib

set_option linter.unusedVariables false

/-!
RZIPv1 container (flycast, core/archive/rzip.cpp): a shallow embedding of the
chunked compressed save-state file format and its reader/writer, with theorems
about round-trips, skip/read equivalence, the legacy 32-bit size rule,
zero-length frames, the writer's header rewrite protocol, and the reader's
buffer invariants.

Files are modelled as lists of natural numbers (byte values) together with an
explicit cursor; fread/fwrite/fseek become pure functions on that pair.  A
fixed-capacity stdio stream (for exercising short writes) is modelled by an
optional capacity on the writer.  The zlib compress/uncompress primitives are
modelled by an abstract codec record; the bound check that uncompress performs
when handed a fixed-size output buffer (it fails with Z_BUF_ERROR when the
decompressed stream does not fit into maxChunkSize bytes) is made explicit at
the call sites, matching the uncompress contract.
-/

namespace RZip

/-- Little-endian byte encoding of a natural number on k bytes
(the in-memory layout of the u32/u64 header fields on the little-endian
targets the source supports). -/
def leBytes (k n : Nat) : List Nat :=
  (List.range k).map fun i => n / 256 ^ i % 256

/-- The 4 bytes of a u32 field. -/
def u32le (n : Nat) : List Nat := leBytes 4 n

/-- The 8 bytes of a u64 field. -/
def u64le (n : Nat) : List Nat := leBytes 8 n

/-- Value of a little-endian byte list. -/
def leVal (bs : List Nat) : Nat :=
  bs.foldr (fun b acc => b + 256 * acc) 0

/-- The 8-byte magic: '#', 'R', 'Z', 'I', 'P', 'v', 1, '#'. -/
def RZipHeader : List Nat := [0x23, 0x52, 0x5a, 0x49, 0x50, 0x76, 1, 0x23]

/-- fread of n bytes at cursor pos: succeeds returning the bytes and the new
cursor exactly when n bytes are available (fread with nmemb = 1 reports 1 only
on a full read). -/
def freadBytes (data : List Nat) (pos n : Nat) : Option (List Nat × Nat) :=
  if pos + n ≤ data.length then some ((data.drop pos).take n, pos + n) else none

/-- The zlib compress/uncompress pair, abstracted: comp may fail (non-Z_OK),
decomp returns the full decompressed stream or fails.  The output-capacity
bound of uncompress is checked explicitly where the source calls it. -/
structure Codec where
  comp : List Nat → Option (List Nat)
  decomp : List Nat → Option (List Nat)

/-- A concrete codec used to instantiate theorems: compression prefixes the
byte 255, decompression strips it (and rejects streams not starting with 255),
so compressed frames are nonempty and round-trip. -/
def sampleCodec : Codec where
  comp p := some (255 :: p)
  decomp z := match z with
    | 255 :: t => some t
    | _ => none

/-- A read-mode RZipFile handle: the underlying file (bytes plus cursor), the
header fields maxChunkSize and size, and the decompressed chunk buffer (valid
contents chunk, consumed prefix chunkIndex, fill count chunkSize). -/
structure RZipReader where
  data : List Nat
  pos : Nat
  maxChunkSize : Nat
  size : Nat
  chunk : List Nat
  chunkIndex : Nat
  chunkSize : Nat
deriving DecidableEq

/-- RZipFile::Open in read mode: read and check the 8-byte magic, read the
u32 maxChunkSize and the u64 size; if the high 32 bits of size are set, mask
size to its low 32 bits and seek back 4 bytes (legacy 32-bit size files);
allocate the chunk buffer with chunkIndex = chunkSize = 0. -/
def OpenRead (data : List Nat) : Option RZipReader :=
  match freadBytes data 0 8 with
  | none => none
  | some (hdr, p1) =>
    if hdr = RZipHeader then
      match freadBytes data p1 4 with
      | none => none
      | some (m4, p2) =>
        match freadBytes data p2 8 with
        | none => none
        | some (s8, p3) =>
          let sz := leVal s8
          let sz' := if sz / 2 ^ 32 ≠ 0 then sz % 2 ^ 32 else sz
          let pos' := if sz / 2 ^ 32 ≠ 0 then p3 - 4 else p3
          some { data := data, pos := pos', maxChunkSize := leVal m4,
                 size := sz', chunk := [], chunkIndex := 0, chunkSize := 0 }
    else none

/-- RZipFile::Read: loop while rv < length; when the chunk buffer is
exhausted (chunkIndex == chunkSize) zero the buffer state and pull the next
frame: read the 4-byte compressed length (on failure break), skip the frame
if the length is zero, read the compressed payload (on failure break),
decompress it with output capacity maxChunkSize (on failure break); then copy
min(chunkSize - chunkIndex, length - rv) bytes out of the buffer.  Returns
the bytes produced (the source copies them into the caller's buffer and
returns their count). -/
def Read (c : Codec) (st : RZipReader) (len : Nat) : List Nat × RZipReader :=
  if len = 0 then ([], st)
  else if st.chunkIndex = st.chunkSize then
    let st0 : RZipReader := { st with chunkSize := 0, chunkIndex := 0, chunk := [] }
    match h1 : freadBytes st.data st.pos 4 with
    | none => ([], st0)
    | some (bs, p1) =>
      if leVal bs = 0 then Read c { st0 with pos := p1 } len
      else
        match h2 : freadBytes st.data p1 (leVal bs) with
        | none => ([], { st0 with pos := p1 })
        | some (zbs, p2) =>
          match c.decomp zbs with
          | none => ([], { st0 with pos := p2 })
          | some d =>
            if d.length ≤ st.maxChunkSize then
              Read c { st0 with pos := p2, chunk := d, chunkSize := d.length } len
            else ([], { st0 with pos := p2 })
  else if st.chunkSize < st.chunkIndex then
    -- unreachable for handles produced by OpenRead (chunkIndex never exceeds
    -- chunkSize, see the buffer invariant theorems); kept to make the
    -- recursion total
    ([], st)
  else
    let l := min (st.chunkSize - st.chunkIndex) len
    let rest := Read c { st with chunkIndex := st.chunkIndex + l } (len - l)
    ((st.chunk.drop st.chunkIndex).take l ++ rest.1, rest.2)
termination_by (st.data.length - st.pos, len)
decreasing_by
  · apply Prod.Lex.left
    unfold freadBytes at h1
    split at h1
    · simp only [Option.some.injEq, Prod.mk.injEq] at h1
      omega
    · exact absurd h1 (by simp)
  · apply Prod.Lex.left
    unfold freadBytes at h1 h2
    split at h1
    · split at h2
      · simp only [Option.some.injEq, Prod.mk.injEq] at h1 h2
        omega
      · exact absurd h2 (by simp)
    · exact absurd h1 (by simp)
  · apply Prod.Lex.right
    omega

/-- RZipFile::Skip: identical to Read except that no bytes are copied out;
returns the count of bytes logically consumed. -/
def Skip (c : Codec) (st : RZipReader) (len : Nat) : Nat × RZipReader :=
  if len = 0 then (0, st)
  else if st.chunkIndex = st.chunkSize then
    let st0 : RZipReader := { st with chunkSize := 0, chunkIndex := 0, chunk := [] }
    match h1 : freadBytes st.data st.pos 4 with
    | none => (0, st0)
    | some (bs, p1) =>
      if leVal bs = 0 then Skip c { st0 with pos := p1 } len
      else
        match h2 : freadBytes st.data p1 (leVal bs) with
        | none => (0, { st0 with pos := p1 })
        | some (zbs, p2) =>
          match c.decomp zbs with
          | none => (0, { st0 with pos := p2 })
          | some d =>
            if d.length ≤ st.maxChunkSize then
              Skip c { st0 with pos := p2, chunk := d, chunkSize := d.length } len
            else (0, { st0 with pos := p2 })
  else if st.chunkSize < st.chunkIndex then
    -- unreachable for handles produced by OpenRead; kept to make the
    -- recursion total
    (0, st)
  else
    let l := min (st.chunkSize - st.chunkIndex) len
    let rest := Skip c { st with chunkIndex := st.chunkIndex + l } (len - l)
    (l + rest.1, rest.2)
termination_by (st.data.length - st.pos, len)
decreasing_by
  · apply Prod.Lex.left
    unfold freadBytes at h1
    split at h1
    · simp only [Option.some.injEq, Prod.mk.injEq] at h1
      omega
    · exact absurd h1 (by simp)
  · apply Prod.Lex.left
    unfold freadBytes at h1 h2
    split at h1
    · split at h2
      · simp only [Option.some.injEq, Prod.mk.injEq] at h1 h2
        omega
      · exact absurd h2 (by simp)
    · exact absurd h1 (by simp)
  · apply Prod.Lex.right
    omega

/-- A write-mode RZipFile handle: the file bytes, the cursor, the header
fields, and an optional byte capacity of the underlying stream (a full stream
makes fwrite fail, exercising the short-write paths; cap none means writes
always succeed). -/
structure RZipWriter where
  data : List Nat
  pos : Nat
  maxChunkSize : Nat
  size : Nat
  cap : Option Nat
deriving DecidableEq

/-- Overwrite the bytes of data at cursor pos; a seek past the end followed
by a write materializes the intervening gap as zero bytes. -/
def writeAt (data : List Nat) (pos : Nat) (bs : List Nat) : List Nat :=
  (data ++ List.replicate (pos - data.length) 0).take pos
    ++ bs ++ data.drop (pos + bs.length)

/-- fwrite of bs at the writer's cursor: fails (short write) when the stream
capacity would be exceeded. -/
def fwriteW (w : RZipWriter) (bs : List Nat) : Option RZipWriter :=
  match w.cap with
  | some cp =>
    if w.pos + bs.length ≤ cp then
      some { w with data := writeAt w.data w.pos bs, pos := w.pos + bs.length }
    else none
  | none =>
    some { w with data := writeAt w.data w.pos bs, pos := w.pos + bs.length }

/-- RZipFile::Open in write mode: truncate the file, write the magic and the
u32 maxChunkSize = 1024*1024, then fseek 8 bytes forward to reserve room for
the size field without writing it (the seek alone does not extend the file).
size starts at 0. -/
def OpenW (cap : Option Nat) : Option RZipWriter :=
  let w0 : RZipWriter :=
    { data := [], pos := 0, maxChunkSize := 1024 * 1024, size := 0, cap := cap }
  match fwriteW w0 RZipHeader with
  | none => none
  | some w1 =>
    match fwriteW w1 (u32le w1.maxChunkSize) with
    | none => none
    | some w2 => some { w2 with pos := w2.pos + 8 }

/-- The chunking loop of RZipFile::Write: while rv < length, compress the
next min(maxChunkSize, length - rv) input bytes (on failure break), write the
4-byte compressed length and then the compressed bytes (on short write
break), and add the uncompressed chunk size to rv and to size.  Returns rv
and the updated writer. -/
def WriteLoop (c : Codec) (w : RZipWriter) (input : List Nat) : Nat × RZipWriter :=
  if input.length = 0 then (0, w)
  else if w.maxChunkSize = 0 then
    -- with maxChunkSize = 0 the source loop would never make progress;
    -- write handles always carry maxChunkSize = 1024*1024 (see OpenW)
    (0, w)
  else
    let ucs := min w.maxChunkSize input.length
    match c.comp (input.take ucs) with
    | none => (0, w)
    | some z =>
      match fwriteW w (u32le z.length) with
      | none => (0, w)
      | some w1 =>
        match fwriteW w1 z with
        | none => (0, w1)
        | some w2 =>
          let rest := WriteLoop c { w2 with size := w2.size + ucs } (input.drop ucs)
          (ucs + rest.1, rest.2)
termination_by input.length
decreasing_by
  simp only [List.length_drop]
  omega

/-- RZipFile::Write: run the chunking loop, then (whether or not it broke
early) remember the cursor, seek to offset 12 (just after magic and
maxChunkSize), rewrite the 8-byte size field, and seek back.  The rewrite is
guarded by verify() in the source: its failure aborts the process, modelled
as none. -/
def Write (c : Codec) (w : RZipWriter) (input : List Nat) : Option (Nat × RZipWriter) :=
  let rv := WriteLoop c w input
  match fwriteW { rv.2 with pos := 8 + 4 } (u64le rv.2.size) with
  | none => none
  | some w2 => some (rv.1, { w2 with pos := rv.2.pos })

/-- RZipFile::Close on a write handle: the file as left on disk. -/
def closeW (w : RZipWriter) : List Nat := w.data

/-- A chunk frame as laid out on disk: 4-byte little-endian compressed
length, then the compressed bytes. -/
def encodeFrame (z : List Nat) : List Nat := u32le z.length ++ z

/-- A sequence of chunk frames. -/
def encodeFrames (zs : List (List Nat)) : List Nat := (zs.map encodeFrame).flatten

/-- What the reader obtains from one frame with compressed bytes z: nothing
for a zero-length frame (skipped without touching the codec), otherwise the
decompressed bytes provided decompression succeeds within maxChunkSize. -/
def frameOut (c : Codec) (mcs : Nat) (z : List Nat) : Option (List Nat) :=
  if z.length = 0 then some []
  else
    match c.decomp z with
    | none => none
    | some d => if d.length ≤ mcs then some d else none

/-- A frame the reader can always get through: its length field is faithful
(below 2^32) and it decodes. -/
def GoodFrame (c : Codec) (mcs : Nat) (z : List Nat) : Prop :=
  z.length < 2 ^ 32 ∧ (frameOut c mcs z).isSome

/-- The logical byte stream of a frame sequence: concatenation of each
frame's decompressed contents. -/
def logicalStream (c : Codec) (mcs : Nat) (zs : List (List Nat)) : List Nat :=
  (zs.map fun z => (frameOut c mcs z).getD []).flatten

/-- The maximal-chunk splitting performed by the Write loop: successive
pieces of min(mcs, remaining) bytes. -/
def chunksOf (mcs : Nat) (input : List Nat) : List (List Nat) :=
  if input.length = 0 ∨ mcs = 0 then []
  else
    let ucs := min mcs input.length
    input.take ucs :: chunksOf mcs (input.drop ucs)
termination_by input.length
decreasing_by
  simp only [List.length_drop]
  omega

/-- The compressed frames a single Write call emits: one frame per chunk of
the splitting, each the codec's output on that chunk. -/
def compChunks (c : Codec) (mcs : Nat) (input : List Nat) : List (List Nat) :=
  (chunksOf mcs input).map fun p => (c.comp p).getD []

/-- The disk state of a healthy write handle carrying accepted size sz and
frames zs: header, max chunk size 1024*1024, fresh size field, then the
frames, with the cursor parked at the end of the file. -/
def WSt (w : RZipWriter) (sz : Nat) (zs : List (List Nat)) : Prop :=
  w.cap = none ∧ w.maxChunkSize = 1024 * 1024 ∧ w.size = sz ∧
  w.data = RZipHeader ++ u32le (1024 * 1024) ++ u64le sz ++ encodeFrames zs ∧
  w.pos = w.data.length

/-- All the bytes a reader could ever produce from cursor pos on: frames are
pulled and decompressed until the first I/O or codec failure. -/
def availFrames (c : Codec) (mcs : Nat) (data : List Nat) (pos : Nat) : List Nat :=
  match h1 : freadBytes data pos 4 with
  | none => []
  | some (bs, p1) =>
    if leVal bs = 0 then availFrames c mcs data p1
    else
      match h2 : freadBytes data p1 (leVal bs) with
      | none => []
      | some (zbs, p2) =>
        match c.decomp zbs with
        | none => []
        | some d => if d.length ≤ mcs then d ++ availFrames c mcs data p2 else []
termination_by data.length - pos
decreasing_by
  · unfold freadBytes at h1
    split at h1
    · simp only [Option.some.injEq, Prod.mk.injEq] at h1
      omega
    · exact absurd h1 (by simp)
  · unfold freadBytes at h1 h2
    split at h1
    · split at h2
      · simp only [Option.some.injEq, Prod.mk.injEq] at h1 h2
        omega
      · exact absurd h2 (by simp)
    · exact absurd h1 (by simp)

/-- All the bytes a reader in state st can still produce: the unread part of
the chunk buffer followed by every decodable frame. -/
def avail (c : Codec) (st : RZipReader) : List Nat :=
  st.chunk.drop st.chunkIndex ++ availFrames c st.maxChunkSize st.data st.pos

/-- A sequence of Read calls with the given requested lengths; returns the
byte lists produced, in order. -/
def readSeq (c : Codec) (st : RZipReader) : List Nat → List (List Nat) × RZipReader
  | [] => ([], st)
  | n :: rest =>
    let r := Read c st n
    let rs := readSeq c r.2 rest
    (r.1 :: rs.1, rs.2)

/-- One reader operation: a Read or a Skip with a requested length. -/
inductive ROp where
  | read (n : Nat)
  | skip (n : Nat)
deriving DecidableEq

/-- Run a sequence of Read/Skip calls; the observation of a Read is the byte
list produced together with its returned count, that of a Skip the empty
list together with its returned count. -/
def runOps (c : Codec) (st : RZipReader) : List ROp → List (List Nat × Nat) × RZipReader
  | [] => ([], st)
  | ROp.read n :: rest =>
    let r := Read c st n
    let rs := runOps c r.2 rest
    ((r.1, r.1.length) :: rs.1, rs.2)
  | ROp.skip n :: rest =>
    let r := Skip c st n
    let rs := runOps c r.2 rest
    (([], r.1) :: rs.1, rs.2)

/-- A sequence of Write calls on one handle (the returned counts are not
observed; Write itself reports them). -/
def WriteAll (c : Codec) (w : RZipWriter) : List (List Nat) → Option RZipWriter
  | [] => some w
  | i :: rest =>
    match Write c w i with
    | none => none
    | some r => WriteAll c r.2 rest

/-- The handle produced by OpenW none: header and maxChunkSize written, the
cursor parked 8 reserved bytes further, size 0. -/
def w0def : RZipWriter :=
  { data := RZipHeader ++ u32le (1024 * 1024), pos := 20,
    maxChunkSize := 1024 * 1024, size := 0, cap := none }

/-- Basic well-formedness of a reader's buffer bookkeeping: the consumed
prefix does not exceed the fill count, which is the length of the valid
buffer contents. -/
def BufOk (st : RZipReader) : Prop :=
  st.chunkIndex ≤ st.chunkSize ∧ st.chunkSize = st.chunk.length

/-- The reader state st holds the logical byte stream L: past the cursor the
file is exactly a sequence of good frames, the buffer bookkeeping is sound,
and the unread buffer bytes followed by the frames' contents spell L. -/
def Represents (c : Codec) (st : RZipReader) (L : List Nat) : Prop :=
  ∃ zs : List (List Nat),
    st.pos ≤ st.data.length ∧
    st.data.drop st.pos = encodeFrames zs ∧
    (∀ z ∈ zs, GoodFrame c st.maxChunkSize z) ∧
    st.chunkIndex ≤ st.chunkSize ∧
    st.chunkSize = st.chunk.length ∧
    st.chunk.drop st.chunkIndex ++ logicalStream c st.maxChunkSize zs = L

/-- The compressor succeeds on every chunk the Write loop can hand it, and
its output is a nonempty stream whose length fits the 4-byte frame header
(true of zlib compress on inputs up to maxChunkSize). -/
def CompOk (c : Codec) (mcs : Nat) : Prop :=
  ∀ p : List Nat, p.length ≠ 0 → p.length ≤ mcs →
    ∃ z, c.comp p = some z ∧ z.length ≠ 0 ∧ z.length < 2 ^ 32

/-- Decompression inverts compression (the zlib contract). -/
def RoundTripOk (c : Codec) : Prop :=
  ∀ p z, c.comp p = some z → c.decomp z = some p

/-! Little-endian encoding lemmas. -/

theorem leBytes_zero (n : Nat) : leBytes 0 n = [] := rfl

theorem leBytes_succ (k n : Nat) :
    leBytes (k + 1) n = n % 256 :: leBytes k (n / 256) := by
  unfold leBytes
  rw [List.range_succ_eq_map, List.map_cons, List.map_map]
  congr 1
  · simp
  · apply List.map_congr_left
    intro i _
    simp only [Function.comp_apply, Nat.succ_eq_add_one]
    rw [Nat.div_div_eq_div_mul, ← pow_succ']

theorem length_leBytes (k n : Nat) : (leBytes k n).length = k := by
  simp [leBytes]

theorem leVal_nil : leVal [] = 0 := rfl

theorem leVal_cons (b : Nat) (bs : List Nat) :
    leVal (b :: bs) = b + 256 * leVal bs := rfl

theorem leVal_leBytes (k n : Nat) : leVal (leBytes k n) = n % 256 ^ k := by
  induction k generalizing n with
  | zero => simp [leBytes_zero, leVal_nil, Nat.mod_one]
  | succ k ih =>
    rw [leBytes_succ, leVal_cons, ih, pow_succ, mul_comm (256 ^ k) 256, Nat.mod_mul]

theorem length_u32le (n : Nat) : (u32le n).length = 4 := length_leBytes 4 n

theorem length_u64le (n : Nat) : (u64le n).length = 8 := length_leBytes 8 n

theorem leVal_u32le (n : Nat) : leVal (u32le n) = n % 2 ^ 32 := by
  have : (256 : Nat) ^ 4 = 2 ^ 32 := by norm_num
  rw [u32le, leVal_leBytes, this]

theorem leVal_u64le (n : Nat) : leVal (u64le n) = n % 2 ^ 64 := by
  have : (256 : Nat) ^ 8 = 2 ^ 64 := by norm_num
  rw [u64le, leVal_leBytes, this]

theorem leVal_u32le_of_lt {n : Nat} (h : n < 2 ^ 32) : leVal (u32le n) = n := by
  rw [leVal_u32le, Nat.mod_eq_of_lt h]

theorem leVal_u64le_of_lt {n : Nat} (h : n < 2 ^ 64) : leVal (u64le n) = n := by
  rw [leVal_u64le, Nat.mod_eq_of_lt h]

/-! freadBytes lemmas. -/

theorem freadBytes_eq_some {data : List Nat} {pos n : Nat} {bs : List Nat} {p1 : Nat} :
    freadBytes data pos n = some (bs, p1) ↔
      pos + n ≤ data.length ∧ bs = (data.drop pos).take n ∧ p1 = pos + n := by
  unfold freadBytes
  split <;> rename_i h
  · simp only [Option.some.injEq, Prod.mk.injEq]
    constructor
    · rintro ⟨h1, h2⟩
      exact ⟨h, h1.symm, h2.symm⟩
    · rintro ⟨_, h1, h2⟩
      exact ⟨h1.symm, h2.symm⟩
  · constructor
    · intro hc
      exact absurd hc (by simp)
    · rintro ⟨h1, _, _⟩
      omega

theorem freadBytes_eq_none {data : List Nat} {pos n : Nat} :
    freadBytes data pos n = none ↔ data.length < pos + n := by
  unfold freadBytes
  split <;> rename_i h <;> simp <;> omega

/-- Reading n bytes where the file tail starts with a block u of length n
returns exactly u. -/
theorem freadBytes_prefix {data : List Nat} {pos n : Nat} {u v : List Nat}
    (hd : data.drop pos = u ++ v) (hu : u.length = n) (hn : 0 < n) :
    freadBytes data pos n = some (u, pos + n) := by
  have hlen : (data.drop pos).length = data.length - pos := List.length_drop pos data
  have hple : pos ≤ data.length := by
    by_contra hc
    push_neg at hc
    have : data.drop pos = [] := List.drop_eq_nil_of_le (le_of_lt hc)
    rw [this] at hd
    have := congrArg List.length hd
    simp at this
    omega
  have hbound : pos + n ≤ data.length := by
    have := congrArg List.length hd
    simp only [hlen, List.length_append, hu] at this
    omega
  rw [freadBytes_eq_some]
  refine ⟨hbound, ?_, rfl⟩
  rw [hd, ← hu, List.take_left]

/-! Step lemmas for Read, one per branch of the source loop. -/

theorem Read_zero (c : Codec) (st : RZipReader) : Read c st 0 = ([], st) := by
  unfold Read
  simp

theorem Read_fail4 {c : Codec} {st : RZipReader} {len : Nat} (hn : len ≠ 0)
    (hci : st.chunkIndex = st.chunkSize)
    (h1 : freadBytes st.data st.pos 4 = none) :
    Read c st len = ([], { st with chunkSize := 0, chunkIndex := 0, chunk := [] }) := by
  unfold Read
  rw [if_neg hn, if_pos hci, h1]

theorem Read_zeroFrame {c : Codec} {st : RZipReader} {len : Nat} {bs : List Nat} {p1 : Nat}
    (hn : len ≠ 0) (hci : st.chunkIndex = st.chunkSize)
    (h1 : freadBytes st.data st.pos 4 = some (bs, p1)) (hz : leVal bs = 0) :
    Read c st len =
      Read c { st with chunkSize := 0, chunkIndex := 0, chunk := [], pos := p1 } len := by
  conv_lhs => unfold Read
  rw [if_neg hn, if_pos hci, h1]
  simp [hz]

theorem Read_failPayload {c : Codec} {st : RZipReader} {len : Nat} {bs : List Nat} {p1 : Nat}
    (hn : len ≠ 0) (hci : st.chunkIndex = st.chunkSize)
    (h1 : freadBytes st.data st.pos 4 = some (bs, p1)) (hz : leVal bs ≠ 0)
    (h2 : freadBytes st.data p1 (leVal bs) = none) :
    Read c st len = ([], { st with chunkSize := 0, chunkIndex := 0, chunk := [], pos := p1 }) := by
  unfold Read
  rw [if_neg hn, if_pos hci, h1]
  simp [hz]
  rw [h2]

theorem Read_failDecomp {c : Codec} {st : RZipReader} {len : Nat} {bs zbs : List Nat} {p1 p2 : Nat}
    (hn : len ≠ 0) (hci : st.chunkIndex = st.chunkSize)
    (h1 : freadBytes st.data st.pos 4 = some (bs, p1)) (hz : leVal bs ≠ 0)
    (h2 : freadBytes st.data p1 (leVal bs) = some (zbs, p2))
    (h3 : c.decomp zbs = none) :
    Read c st len = ([], { st with chunkSize := 0, chunkIndex := 0, chunk := [], pos := p2 }) := by
  unfold Read
  rw [if_neg hn, if_pos hci, h1]
  simp [hz]
  rw [h2]
  simp
  rw [h3]

theorem Read_failBound {c : Codec} {st : RZipReader} {len : Nat} {bs zbs d : List Nat} {p1 p2 : Nat}
    (hn : len ≠ 0) (hci : st.chunkIndex = st.chunkSize)
    (h1 : freadBytes st.data st.pos 4 = some (bs, p1)) (hz : leVal bs ≠ 0)
    (h2 : freadBytes st.data p1 (leVal bs) = some (zbs, p2))
    (h3 : c.decomp zbs = some d) (h4 : ¬ d.length ≤ st.maxChunkSize) :
    Read c st len = ([], { st with chunkSize := 0, chunkIndex := 0, chunk := [], pos := p2 }) := by
  unfold Read
  rw [if_neg hn, if_pos hci, h1]
  simp [hz]
  rw [h2]
  simp
  rw [h3]
  simp [h4]

theorem Read_refill {c : Codec} {st : RZipReader} {len : Nat} {bs zbs d : List Nat} {p1 p2 : Nat}
    (hn : len ≠ 0) (hci : st.chunkIndex = st.chunkSize)
    (h1 : freadBytes st.data st.pos 4 = some (bs, p1)) (hz : leVal bs ≠ 0)
    (h2 : freadBytes st.data p1 (leVal bs) = some (zbs, p2))
    (h3 : c.decomp zbs = some d) (h4 : d.length ≤ st.maxChunkSize) :
    Read c st len =
      Read c { st with chunkSize := d.length, chunkIndex := 0, chunk := d, pos := p2 } len := by
  conv_lhs => unfold Read
  rw [if_neg hn, if_pos hci, h1]
  simp [hz]
  rw [h2]
  simp
  rw [h3]
  simp [h4]

theorem Read_guard {c : Codec} {st : RZipReader} {len : Nat} (hn : len ≠ 0)
    (hci : st.chunkIndex ≠ st.chunkSize) (hg : st.chunkSize < st.chunkIndex) :
    Read c st len = ([], st) := by
  unfold Read
  rw [if_neg hn, if_neg hci, if_pos hg]

theorem Read_copy {c : Codec} {st : RZipReader} {len : Nat} (hn : len ≠ 0)
    (hci : st.chunkIndex ≠ st.chunkSize) (hg : ¬ st.chunkSize < st.chunkIndex) :
    Read c st len =
      ((st.chunk.drop st.chunkIndex).take (min (st.chunkSize - st.chunkIndex) len) ++
        (Read c { st with chunkIndex := st.chunkIndex + min (st.chunkSize - st.chunkIndex) len }
          (len - min (st.chunkSize - st.chunkIndex) len)).1,
       (Read c { st with chunkIndex := st.chunkIndex + min (st.chunkSize - st.chunkIndex) len }
          (len - min (st.chunkSize - st.chunkIndex) len)).2) := by
  conv_lhs => unfold Read
  rw [if_neg hn, if_neg hci, if_neg hg]

/-! Step lemmas for Skip, mirroring those for Read. -/

theorem Skip_zero (c : Codec) (st : RZipReader) : Skip c st 0 = (0, st) := by
  unfold Skip
  simp

theorem Skip_fail4 {c : Codec} {st : RZipReader} {len : Nat} (hn : len ≠ 0)
    (hci : st.chunkIndex = st.chunkSize)
    (h1 : freadBytes st.data st.pos 4 = none) :
    Skip c st len = (0, { st with chunkSize := 0, chunkIndex := 0, chunk := [] }) := by
  unfold Skip
  rw [if_neg hn, if_pos hci, h1]

theorem Skip_zeroFrame {c : Codec} {st : RZipReader} {len : Nat} {bs : List Nat} {p1 : Nat}
    (hn : len ≠ 0) (hci : st.chunkIndex = st.chunkSize)
    (h1 : freadBytes st.data st.pos 4 = some (bs, p1)) (hz : leVal bs = 0) :
    Skip c st len =
      Skip c { st with chunkSize := 0, chunkIndex := 0, chunk := [], pos := p1 } len := by
  conv_lhs => unfold Skip
  rw [if_neg hn, if_pos hci, h1]
  simp [hz]

theorem Skip_failPayload {c : Codec} {st : RZipReader} {len : Nat} {bs : List Nat} {p1 : Nat}
    (hn : len ≠ 0) (hci : st.chunkIndex = st.chunkSize)
    (h1 : freadBytes st.data st.pos 4 = some (bs, p1)) (hz : leVal bs ≠ 0)
    (h2 : freadBytes st.data p1 (leVal bs) = none) :
    Skip c st len = (0, { st with chunkSize := 0, chunkIndex := 0, chunk := [], pos := p1 }) := by
  unfold Skip
  rw [if_neg hn, if_pos hci, h1]
  simp [hz]
  rw [h2]

theorem Skip_failDecomp {c : Codec} {st : RZipReader} {len : Nat} {bs zbs : List Nat} {p1 p2 : Nat}
    (hn : len ≠ 0) (hci : st.chunkIndex = st.chunkSize)
    (h1 : freadBytes st.data st.pos 4 = some (bs, p1)) (hz : leVal bs ≠ 0)
    (h2 : freadBytes st.data p1 (leVal bs) = some (zbs, p2))
    (h3 : c.decomp zbs = none) :
    Skip c st len = (0, { st with chunkSize := 0, chunkIndex := 0, chunk := [], pos := p2 }) := by
  unfold Skip
  rw [if_neg hn, if_pos hci, h1]
  simp [hz]
  rw [h2]
  simp
  rw [h3]

theorem Skip_failBound {c : Codec} {st : RZipReader} {len : Nat} {bs zbs d : List Nat} {p1 p2 : Nat}
    (hn : len ≠ 0) (hci : st.chunkIndex = st.chunkSize)
    (h1 : freadBytes st.data st.pos 4 = some (bs, p1)) (hz : leVal bs ≠ 0)
    (h2 : freadBytes st.data p1 (leVal bs) = some (zbs, p2))
    (h3 : c.decomp zbs = some d) (h4 : ¬ d.length ≤ st.maxChunkSize) :
    Skip c st len = (0, { st with chunkSize := 0, chunkIndex := 0, chunk := [], pos := p2 }) := by
  unfold Skip
  rw [if_neg hn, if_pos hci, h1]
  simp [hz]
  rw [h2]
  simp
  rw [h3]
  simp [h4]

theorem Skip_refill {c : Codec} {st : RZipReader} {len : Nat} {bs zbs d : List Nat} {p1 p2 : Nat}
    (hn : len ≠ 0) (hci : st.chunkIndex = st.chunkSize)
    (h1 : freadBytes st.data st.pos 4 = some (bs, p1)) (hz : leVal bs ≠ 0)
    (h2 : freadBytes st.data p1 (leVal bs) = some (zbs, p2))
    (h3 : c.decomp zbs = some d) (h4 : d.length ≤ st.maxChunkSize) :
    Skip c st len =
      Skip c { st with chunkSize := d.length, chunkIndex := 0, chunk := d, pos := p2 } len := by
  conv_lhs => unfold Skip
  rw [if_neg hn, if_pos hci, h1]
  simp [hz]
  rw [h2]
  simp
  rw [h3]
  simp [h4]

theorem Skip_guard {c : Codec} {st : RZipReader} {len : Nat} (hn : len ≠ 0)
    (hci : st.chunkIndex ≠ st.chunkSize) (hg : st.chunkSize < st.chunkIndex) :
    Skip c st len = (0, st) := by
  unfold Skip
  rw [if_neg hn, if_neg hci, if_pos hg]

theorem Skip_copy {c : Codec} {st : RZipReader} {len : Nat} (hn : len ≠ 0)
    (hci : st.chunkIndex ≠ st.chunkSize) (hg : ¬ st.chunkSize < st.chunkIndex) :
    Skip c st len =
      (min (st.chunkSize - st.chunkIndex) len +
        (Skip c { st with chunkIndex := st.chunkIndex + min (st.chunkSize - st.chunkIndex) len }
          (len - min (st.chunkSize - st.chunkIndex) len)).1,
       (Skip c { st with chunkIndex := st.chunkIndex + min (st.chunkSize - st.chunkIndex) len }
          (len - min (st.chunkSize - st.chunkIndex) len)).2) := by
  conv_lhs => unfold Skip
  rw [if_neg hn, if_neg hci, if_neg hg]

/-! Skip is Read with the copy elided: same state evolution, and its return
value is the length of what Read would have produced. -/

theorem Skip_eq_read (c : Codec) :
    ∀ (st : RZipReader) (len : Nat), BufOk st →
      Skip c st len = ((Read c st len).1.length, (Read c st len).2) := by
  intro st len
  induction st, len using Read.induct c with
  | case1 st =>
    intro _
    rw [Skip_zero, Read_zero]
    rfl
  | case2 st len hn hci h1 =>
    intro _
    rw [Skip_fail4 hn hci h1, Read_fail4 hn hci h1]
    rfl
  | case3 st len hn hci st0 bs p1 h1 hz ih =>
    intro _
    rw [Skip_zeroFrame hn hci h1 hz, Read_zeroFrame hn hci h1 hz]
    exact ih ⟨Nat.le_refl 0, rfl⟩
  | case4 st len hn hci bs p1 h1 hz h2 =>
    intro _
    rw [Skip_failPayload hn hci h1 hz h2, Read_failPayload hn hci h1 hz h2]
    rfl
  | case5 st len hn hci bs p1 h1 hz zbs p2 h2 h3 =>
    intro _
    rw [Skip_failDecomp hn hci h1 hz h2 h3, Read_failDecomp hn hci h1 hz h2 h3]
    rfl
  | case6 st len hn hci st0 bs p1 h1 hz zbs p2 h2 d h3 h4 ih =>
    intro _
    rw [Skip_refill hn hci h1 hz h2 h3 h4, Read_refill hn hci h1 hz h2 h3 h4]
    exact ih ⟨Nat.zero_le _, rfl⟩
  | case7 st len hn hci bs p1 h1 hz zbs p2 h2 d h3 h4 =>
    intro _
    rw [Skip_failBound hn hci h1 hz h2 h3 h4, Read_failBound hn hci h1 hz h2 h3 h4]
    rfl
  | case8 st len hn hci hg =>
    intro hb
    exact absurd hb.1 (by omega)
  | case9 st len hn hci hg l ih =>
    intro hb
    have hb1 := hb.1
    have hb2 := hb.2
    have ihh :
        Skip c { st with chunkIndex := st.chunkIndex + min (st.chunkSize - st.chunkIndex) len }
            (len - min (st.chunkSize - st.chunkIndex) len) =
          ((Read c { st with chunkIndex := st.chunkIndex + min (st.chunkSize - st.chunkIndex) len }
              (len - min (st.chunkSize - st.chunkIndex) len)).1.length,
           (Read c { st with chunkIndex := st.chunkIndex + min (st.chunkSize - st.chunkIndex) len }
              (len - min (st.chunkSize - st.chunkIndex) len)).2) := by
      refine ih ⟨?_, ?_⟩
      · simp
        omega
      · simpa using hb2
    rw [Skip_copy hn hci hg, Read_copy hn hci hg, ihh]
    simp only [Prod.mk.injEq, List.length_append, List.length_take, List.length_drop]
    refine ⟨?_, trivial⟩
    omega

/-! State components untouched by Read. -/

theorem Read_frame (c : Codec) :
    ∀ (st : RZipReader) (len : Nat),
      (Read c st len).2.data = st.data ∧
      (Read c st len).2.maxChunkSize = st.maxChunkSize ∧
      (Read c st len).2.size = st.size := by
  intro st len
  induction st, len using Read.induct c with
  | case1 st => rw [Read_zero]; exact ⟨rfl, rfl, rfl⟩
  | case2 st len hn hci h1 => rw [Read_fail4 hn hci h1]; exact ⟨rfl, rfl, rfl⟩
  | case3 st len hn hci st0 bs p1 h1 hz ih =>
    rw [Read_zeroFrame hn hci h1 hz]; exact ih
  | case4 st len hn hci bs p1 h1 hz h2 =>
    rw [Read_failPayload hn hci h1 hz h2]; exact ⟨rfl, rfl, rfl⟩
  | case5 st len hn hci bs p1 h1 hz zbs p2 h2 h3 =>
    rw [Read_failDecomp hn hci h1 hz h2 h3]; exact ⟨rfl, rfl, rfl⟩
  | case6 st len hn hci st0 bs p1 h1 hz zbs p2 h2 d h3 h4 ih =>
    rw [Read_refill hn hci h1 hz h2 h3 h4]; exact ih
  | case7 st len hn hci bs p1 h1 hz zbs p2 h2 d h3 h4 =>
    rw [Read_failBound hn hci h1 hz h2 h3 h4]; exact ⟨rfl, rfl, rfl⟩
  | case8 st len hn hci hg => rw [Read_guard hn hci hg]; exact ⟨rfl, rfl, rfl⟩
  | case9 st len hn hci hg l ih => rw [Read_copy hn hci hg]; exact ih

/-! Preservation of the buffer invariants by Read and Skip. -/

theorem Read_inv (c : Codec) :
    ∀ (st : RZipReader) (len : Nat),
      st.chunkIndex ≤ st.chunkSize ∧ st.chunkSize ≤ st.maxChunkSize ∧
        st.chunkSize = st.chunk.length →
      (Read c st len).2.chunkIndex ≤ (Read c st len).2.chunkSize ∧
        (Read c st len).2.chunkSize ≤ (Read c st len).2.maxChunkSize ∧
        (Read c st len).2.chunkSize = (Read c st len).2.chunk.length := by
  intro st len
  induction st, len using Read.induct c with
  | case1 st =>
    intro h
    rw [Read_zero]
    exact h
  | case2 st len hn hci h1 =>
    intro h
    rw [Read_fail4 hn hci h1]
    exact ⟨Nat.le_refl 0, Nat.zero_le _, rfl⟩
  | case3 st len hn hci st0 bs p1 h1 hz ih =>
    intro h
    rw [Read_zeroFrame hn hci h1 hz]
    exact ih ⟨Nat.le_refl 0, Nat.zero_le _, rfl⟩
  | case4 st len hn hci bs p1 h1 hz h2 =>
    intro h
    rw [Read_failPayload hn hci h1 hz h2]
    exact ⟨Nat.le_refl 0, Nat.zero_le _, rfl⟩
  | case5 st len hn hci bs p1 h1 hz zbs p2 h2 h3 =>
    intro h
    rw [Read_failDecomp hn hci h1 hz h2 h3]
    exact ⟨Nat.le_refl 0, Nat.zero_le _, rfl⟩
  | case6 st len hn hci st0 bs p1 h1 hz zbs p2 h2 d h3 h4 ih =>
    intro h
    rw [Read_refill hn hci h1 hz h2 h3 h4]
    exact ih ⟨Nat.zero_le _, h4, rfl⟩
  | case7 st len hn hci bs p1 h1 hz zbs p2 h2 d h3 h4 =>
    intro h
    rw [Read_failBound hn hci h1 hz h2 h3 h4]
    exact ⟨Nat.le_refl 0, Nat.zero_le _, rfl⟩
  | case8 st len hn hci hg =>
    intro h
    rw [Read_guard hn hci hg]
    exact h
  | case9 st len hn hci hg l ih =>
    intro h
    rw [Read_copy hn hci hg]
    refine ih ⟨?_, h.2.1, h.2.2⟩
    simp
    omega

/-! Inversion of OpenRead. -/

theorem OpenRead_shape {data : List Nat} {rd : RZipReader} (h : OpenRead data = some rd) :
    rd.data = data ∧ rd.chunk = [] ∧ rd.chunkIndex = 0 ∧ rd.chunkSize = 0 := by
  unfold OpenRead at h
  split at h
  · exact absurd h (by simp)
  · split at h
    · split at h
      · exact absurd h (by simp)
      · split at h
        · exact absurd h (by simp)
        · simp only [Option.some.injEq] at h
          subst h
          exact ⟨rfl, rfl, rfl, rfl⟩
    · exact absurd h (by simp)

theorem length_RZipHeader : RZipHeader.length = 8 := rfl

theorem drop_header (x : List Nat) : (RZipHeader ++ x).drop 8 = x := by
  rw [← length_RZipHeader, List.drop_left]

/-- Full description of a successful Open in read mode, including the
legacy 32-bit size rule. -/
theorem OpenRead_parse (m s : Nat) (rest : List Nat)
    (hm : m < 2 ^ 32) (hs : s < 2 ^ 64) :
    OpenRead (RZipHeader ++ (u32le m ++ (u64le s ++ rest))) =
      some { data := RZipHeader ++ (u32le m ++ (u64le s ++ rest)),
             pos := if 2 ^ 32 ≤ s then 16 else 20,
             maxChunkSize := m,
             size := if 2 ^ 32 ≤ s then s % 2 ^ 32 else s,
             chunk := [], chunkIndex := 0, chunkSize := 0 } := by
  have hd0 : (RZipHeader ++ (u32le m ++ (u64le s ++ rest))).drop 0 =
      RZipHeader ++ (u32le m ++ (u64le s ++ rest)) := List.drop_zero _
  have hf1 : freadBytes (RZipHeader ++ (u32le m ++ (u64le s ++ rest))) 0 8 =
      some (RZipHeader, 8) := by
    have := freadBytes_prefix hd0 length_RZipHeader (by norm_num)
    simpa using this
  have hd8 : (RZipHeader ++ (u32le m ++ (u64le s ++ rest))).drop 8 =
      u32le m ++ (u64le s ++ rest) := drop_header _
  have hf2 : freadBytes (RZipHeader ++ (u32le m ++ (u64le s ++ rest))) 8 4 =
      some (u32le m, 12) := by
    have := freadBytes_prefix hd8 (length_u32le m) (by norm_num)
    simpa using this
  have hd12 : (RZipHeader ++ (u32le m ++ (u64le s ++ rest))).drop 12 =
      u64le s ++ rest := by
    have := List.drop_drop 4 8 (RZipHeader ++ (u32le m ++ (u64le s ++ rest)))
    rw [hd8] at this
    rw [← this, ← length_u32le m, List.drop_left]
  have hf3 : freadBytes (RZipHeader ++ (u32le m ++ (u64le s ++ rest))) 12 8 =
      some (u64le s, 20) := by
    have := freadBytes_prefix hd12 (length_u64le s) (by norm_num)
    simpa using this
  unfold OpenRead
  simp only [hf1, hf2, hf3, eq_self_iff_true, if_true]
  rw [leVal_u32le_of_lt hm, leVal_u64le_of_lt hs]
  by_cases hleg : 2 ^ 32 ≤ s
  · have hne : s / 2 ^ 32 ≠ 0 := by
      have := Nat.div_pos hleg (by norm_num : (0 : Nat) < 2 ^ 32)
      omega
    rw [if_pos hne, if_pos hne, if_pos hleg, if_pos hleg]
  · have hne : ¬ s / 2 ^ 32 ≠ 0 := by
      have : s / 2 ^ 32 = 0 := Nat.div_eq_of_lt (by omega)
      omega
    rw [if_neg hne, if_neg hne, if_neg hleg, if_neg hleg]

/-- C3: on Open in read mode, after the 8-byte size field is read, a value
with any of its high 32 bits set is replaced by its low 32 bits and the
cursor is rewound 4 bytes (landing at offset 16, i.e. 4 bytes past the start
of the size field at offset 12, so the first chunk frame is read from
there); otherwise size and cursor (offset 20) are untouched. -/
theorem open_legacy_size (m s : Nat) (rest : List Nat)
    (hm : m < 2 ^ 32) (hs : s < 2 ^ 64) :
    OpenRead (RZipHeader ++ (u32le m ++ (u64le s ++ rest))) =
      some { data := RZipHeader ++ (u32le m ++ (u64le s ++ rest)),
             pos := if 2 ^ 32 ≤ s then 16 else 20,
             maxChunkSize := m,
             size := if 2 ^ 32 ≤ s then s % 2 ^ 32 else s,
             chunk := [], chunkIndex := 0, chunkSize := 0 } :=
  OpenRead_parse m s rest hm hs

/-- C3 witness: a legacy header (size field 2^32 + 7) is masked to 7 and the
cursor rewound to 16; a modern header (size 7) is left at 20. -/
theorem open_legacy_size_witness :
    (5 < 2 ^ 32 ∧ 2 ^ 32 + 7 < 2 ^ 64) ∧
    OpenRead (RZipHeader ++ (u32le 5 ++ (u64le (2 ^ 32 + 7) ++ [9, 9]))) =
      some { data := RZipHeader ++ (u32le 5 ++ (u64le (2 ^ 32 + 7) ++ [9, 9])),
             pos := if 2 ^ 32 ≤ 2 ^ 32 + 7 then 16 else 20,
             maxChunkSize := 5,
             size := if 2 ^ 32 ≤ 2 ^ 32 + 7 then (2 ^ 32 + 7) % 2 ^ 32 else 2 ^ 32 + 7,
             chunk := [], chunkIndex := 0, chunkSize := 0 } :=
  ⟨⟨by norm_num, by norm_num⟩,
    open_legacy_size 5 (2 ^ 32 + 7) [9, 9] (by norm_num) (by norm_num)⟩

/-- C10: zero-length requests are pure no-ops: Read with requested length 0
returns no bytes, Skip 0 returns 0, and both leave the whole handle state
(file, cursor, chunkIndex, chunkSize, buffer) unchanged; no frame is pulled. -/
theorem zero_request_noop (c : Codec) (st : RZipReader) :
    Read c st 0 = ([], st) ∧ Skip c st 0 = (0, st) :=
  ⟨Read_zero c st, Skip_zero c st⟩

/-- C2: Skip(n) leaves the handle in exactly the state Read(n) would, and
therefore Skip(n) followed by Read(m) produces the same bytes and the same
final handle state as Read(n) (output discarded) followed by Read(m), for
any split with n + m at most the archive's recorded total size. -/
theorem skip_read_equiv (c : Codec) (st : RZipReader) (n m : Nat)
    (hb : st.chunkIndex ≤ st.chunkSize ∧ st.chunkSize = st.chunk.length)
    (hnm : n + m ≤ st.size) :
    (Skip c st n).2 = (Read c st n).2 ∧
    Read c (Skip c st n).2 m = Read c (Read c st n).2 m := by
  rw [Skip_eq_read c st n hb]
  exact ⟨rfl, rfl⟩

/-- C2 witness: a two-frame archive of total size 3, split n = 2, m = 1. -/
theorem skip_read_equiv_witness :
    ((2 : Nat) + 1 ≤ 3) ∧
    ((Skip sampleCodec
        { data := RZipHeader ++ u32le 2 ++ u64le 3 ++ encodeFrames [[255, 10, 20], [255, 30]],
          pos := 20, maxChunkSize := 2, size := 3, chunk := [], chunkIndex := 0, chunkSize := 0 } 2).2 =
      (Read sampleCodec
        { data := RZipHeader ++ u32le 2 ++ u64le 3 ++ encodeFrames [[255, 10, 20], [255, 30]],
          pos := 20, maxChunkSize := 2, size := 3, chunk := [], chunkIndex := 0, chunkSize := 0 } 2).2 ∧
     Read sampleCodec (Skip sampleCodec
        { data := RZipHeader ++ u32le 2 ++ u64le 3 ++ encodeFrames [[255, 10, 20], [255, 30]],
          pos := 20, maxChunkSize := 2, size := 3, chunk := [], chunkIndex := 0, chunkSize := 0 } 2).2 1 =
     Read sampleCodec (Read sampleCodec
        { data := RZipHeader ++ u32le 2 ++ u64le 3 ++ encodeFrames [[255, 10, 20], [255, 30]],
          pos := 20, maxChunkSize := 2, size := 3, chunk := [], chunkIndex := 0, chunkSize := 0 } 2).2 1) :=
  ⟨by norm_num,
    skip_read_equiv sampleCodec _ 2 1 ⟨by decide, by decide⟩ (by norm_num)⟩

/-- C9: the reader buffer invariant chunkIndex ≤ chunkSize ≤ maxChunkSize
(with chunkSize the fill of the buffer) holds after Open in read mode and is
preserved by every Read and every Skip call. -/
theorem reader_buffer_inv (c : Codec) (data : List Nat) (rd st : RZipReader) (len : Nat)
    (hopen : OpenRead data = some rd)
    (hinv : st.chunkIndex ≤ st.chunkSize ∧ st.chunkSize ≤ st.maxChunkSize ∧
            st.chunkSize = st.chunk.length) :
    (rd.chunkIndex ≤ rd.chunkSize ∧ rd.chunkSize ≤ rd.maxChunkSize ∧
      rd.chunkSize = rd.chunk.length) ∧
    ((Read c st len).2.chunkIndex ≤ (Read c st len).2.chunkSize ∧
      (Read c st len).2.chunkSize ≤ (Read c st len).2.maxChunkSize ∧
      (Read c st len).2.chunkSize = (Read c st len).2.chunk.length) ∧
    ((Skip c st len).2.chunkIndex ≤ (Skip c st len).2.chunkSize ∧
      (Skip c st len).2.chunkSize ≤ (Skip c st len).2.maxChunkSize ∧
      (Skip c st len).2.chunkSize = (Skip c st len).2.chunk.length) := by
  obtain ⟨-, -, hci, hcs⟩ := OpenRead_shape hopen
  refine ⟨⟨?_, ?_, ?_⟩, Read_inv c st len hinv, ?_⟩
  · rw [hci, hcs]
  · rw [hcs]
    exact Nat.zero_le _
  · rw [hcs]
    obtain ⟨-, h2, -, -⟩ := OpenRead_shape hopen
    rw [h2]
    rfl
  · rw [Skip_eq_read c st len ⟨hinv.1, hinv.2.2⟩]
    exact Read_inv c st len hinv

/-- C9 witness: the invariant holds for the opened archive of the C2 witness
and is preserved by Read/Skip of 2 bytes. -/
theorem reader_buffer_inv_witness :
    ((0 : Nat) ≤ 0 ∧ (0 : Nat) ≤ 2 ∧ (0 : Nat) = 0) ∧
    ((Read sampleCodec
        { data := RZipHeader ++ u32le 2 ++ u64le 3 ++ encodeFrames [[255, 10, 20], [255, 30]],
          pos := 20, maxChunkSize := 2, size := 3, chunk := [], chunkIndex := 0, chunkSize := 0 } 2).2.chunkIndex ≤
      (Read sampleCodec
        { data := RZipHeader ++ u32le 2 ++ u64le 3 ++ encodeFrames [[255, 10, 20], [255, 30]],
          pos := 20, maxChunkSize := 2, size := 3, chunk := [], chunkIndex := 0, chunkSize := 0 } 2).2.chunkSize) := by
  constructor
  · exact ⟨Nat.le_refl 0, by norm_num, rfl⟩
  · have h := reader_buffer_inv sampleCodec
      (RZipHeader ++ u32le 2 ++ u64le 3 ++ encodeFrames [[255, 10, 20], [255, 30]])
      { data := RZipHeader ++ u32le 2 ++ u64le 3 ++ encodeFrames [[255, 10, 20], [255, 30]],
        pos := 20, maxChunkSize := 2, size := 3, chunk := [], chunkIndex := 0, chunkSize := 0 }
      { data := RZipHeader ++ u32le 2 ++ u64le 3 ++ encodeFrames [[255, 10, 20], [255, 30]],
        pos := 20, maxChunkSize := 2, size := 3, chunk := [], chunkIndex := 0, chunkSize := 0 }
      2 (by decide) ⟨by decide, by decide, by decide⟩
    exact h.2.1.1

/-! writeAt and fwriteW lemmas. -/

theorem writeAt_append {d : List Nat} {p : Nat} (bs : List Nat) (hp : d.length ≤ p) :
    writeAt d p bs = d ++ List.replicate (p - d.length) 0 ++ bs := by
  unfold writeAt
  have h1 : (d ++ List.replicate (p - d.length) 0).length = p := by
    simp
    omega
  rw [List.take_of_length_le (le_of_eq h1), List.drop_eq_nil_of_le (by omega)]
  simp

theorem length_writeAt (d : List Nat) (p : Nat) (bs : List Nat) :
    (writeAt d p bs).length = max (p + bs.length) d.length := by
  unfold writeAt
  simp
  omega

theorem writeAt_mid {a b tail : List Nat} {p : Nat} (s : List Nat)
    (hp : p = a.length) (hs : s.length = b.length) :
    writeAt (a ++ b ++ tail) p s = a ++ s ++ tail := by
  unfold writeAt
  have h0 : p - (a ++ b ++ tail).length = 0 := by
    simp
    omega
  rw [h0, List.replicate_zero, List.append_nil]
  have h1 : (a ++ b ++ tail).take p = a := by
    rw [List.append_assoc, hp, List.take_left]
  have h2 : (a ++ b ++ tail).drop (p + s.length) = tail := by
    rw [List.append_assoc, hp, hs]
    have : a.length + b.length = (a ++ b).length := by simp
    rw [this, ← List.append_assoc, List.drop_left]
  rw [h1, h2]

theorem slice_writeAt (d : List Nat) (p : Nat) (s : List Nat) :
    ((writeAt d p s).drop p).take s.length = s := by
  unfold writeAt
  set A := (d ++ List.replicate (p - d.length) 0).take p with hA
  have h1 : A.length = p := by
    rw [hA]
    simp
    omega
  calc ((A ++ s ++ d.drop (p + s.length)).drop p).take s.length
      = ((A ++ (s ++ d.drop (p + s.length))).drop A.length).take s.length := by
        rw [List.append_assoc, h1]
    _ = (s ++ d.drop (p + s.length)).take s.length := by rw [List.drop_left]
    _ = s := List.take_left s _

theorem fwriteW_none {w : RZipWriter} (bs : List Nat) (hc : w.cap = none) :
    fwriteW w bs =
      some { w with data := writeAt w.data w.pos bs, pos := w.pos + bs.length } := by
  unfold fwriteW
  rw [hc]

/-! encodeFrames lemmas. -/

theorem encodeFrames_nil : encodeFrames [] = [] := rfl

theorem encodeFrames_cons (z : List Nat) (zs : List (List Nat)) :
    encodeFrames (z :: zs) = encodeFrame z ++ encodeFrames zs := by
  simp [encodeFrames]

theorem encodeFrames_append (zs₁ zs₂ : List (List Nat)) :
    encodeFrames (zs₁ ++ zs₂) = encodeFrames zs₁ ++ encodeFrames zs₂ := by
  simp [encodeFrames]

theorem length_encodeFrame (z : List Nat) : (encodeFrame z).length = 4 + z.length := by
  simp [encodeFrame, length_u32le]

/-! chunksOf lemmas. -/

theorem chunksOf_nil (mcs : Nat) : chunksOf mcs [] = [] := by
  unfold chunksOf
  simp

theorem chunksOf_cons {mcs : Nat} {input : List Nat} (hm : mcs ≠ 0)
    (hi : input.length ≠ 0) :
    chunksOf mcs input =
      input.take (min mcs input.length) ::
        chunksOf mcs (input.drop (min mcs input.length)) := by
  conv_lhs => unfold chunksOf
  rw [if_neg (by simp [hm, hi])]

theorem chunksOf_flatten (mcs : Nat) (hm : mcs ≠ 0) :
    ∀ input : List Nat, (chunksOf mcs input).flatten = input := by
  intro input
  induction input using chunksOf.induct mcs with
  | case1 input h =>
    rcases h with h | h
    · rw [List.length_eq_zero] at h
      rw [h, chunksOf_nil]
      rfl
    · exact absurd h hm
  | case2 input h ucs ih =>
    push_neg at h
    rw [chunksOf_cons hm h.1]
    simp only [List.flatten_cons]
    rw [ih]
    exact List.take_append_drop _ input

theorem chunksOf_mem (mcs : Nat) (hm : mcs ≠ 0) :
    ∀ input : List Nat, ∀ p ∈ chunksOf mcs input, p.length ≠ 0 ∧ p.length ≤ mcs := by
  intro input
  induction input using chunksOf.induct mcs with
  | case1 input h =>
    rcases h with h | h
    · rw [List.length_eq_zero] at h
      rw [h, chunksOf_nil]
      intro p hp
      exact absurd hp (by simp)
    · exact absurd h hm
  | case2 input h ucs ih =>
    push_neg at h
    rw [chunksOf_cons hm h.1]
    intro p hp
    rcases List.mem_cons.mp hp with hp | hp
    · subst hp
      refine ⟨?_, ?_⟩
      · rw [List.length_take]
        omega
      · rw [List.length_take]
        omega
    · exact ih p hp

theorem chunksOf_dropLast (mcs : Nat) (hm : mcs ≠ 0) :
    ∀ input : List Nat, ∀ p ∈ (chunksOf mcs input).dropLast, p.length = mcs := by
  intro input
  induction input using chunksOf.induct mcs with
  | case1 input h =>
    rcases h with h | h
    · rw [List.length_eq_zero] at h
      rw [h, chunksOf_nil]
      intro p hp
      exact absurd hp (by simp)
    · exact absurd h hm
  | case2 input h ucs ih =>
    push_neg at h
    rw [chunksOf_cons hm h.1]
    by_cases hrest : (input.drop (min mcs input.length)).length = 0
    · rw [List.length_eq_zero] at hrest
      rw [hrest, chunksOf_nil]
      intro p hp
      exact absurd hp (by simp)
    · intro p hp
      rw [List.dropLast_cons_of_ne_nil (by
            rw [chunksOf_cons hm hrest]
            simp)] at hp
      rcases List.mem_cons.mp hp with hp | hp
      · subst hp
        simp only [List.length_take]
        have hd : (input.drop (min mcs input.length)).length =
            input.length - min mcs input.length := by simp
        omega
      · exact ih p hp

/-! Step lemmas for the Write loop. -/

theorem WL_nil {c : Codec} {w : RZipWriter} {input : List Nat} (h : input.length = 0) :
    WriteLoop c w input = (0, w) := by
  unfold WriteLoop
  rw [if_pos h]

theorem WL_step {c : Codec} {w w1 w2 : RZipWriter} {input : List Nat} {z : List Nat}
    (hn : input.length ≠ 0) (hm0 : w.maxChunkSize ≠ 0)
    (hz : c.comp (input.take (min w.maxChunkSize input.length)) = some z)
    (hw1 : fwriteW w (u32le z.length) = some w1)
    (hw2 : fwriteW w1 z = some w2) :
    WriteLoop c w input =
      (min w.maxChunkSize input.length +
        (WriteLoop c { w2 with size := w2.size + min w.maxChunkSize input.length }
          (input.drop (min w.maxChunkSize input.length))).1,
       (WriteLoop c { w2 with size := w2.size + min w.maxChunkSize input.length }
          (input.drop (min w.maxChunkSize input.length))).2) := by
  conv_lhs => unfold WriteLoop
  rw [if_neg hn, if_neg hm0]
  simp only [hz, hw1, hw2]

/-- Component-wise description of the Write loop on a failure-free handle:
everything is accepted, the frames of the maximal-chunk splitting are
appended at the cursor (materializing any reserved gap as zeros), and size
grows by the input length. -/
theorem WriteLoop_spec (c : Codec) (mcs : Nat) (hm : mcs ≠ 0) (hcomp : CompOk c mcs) :
    ∀ (w : RZipWriter) (input : List Nat), w.maxChunkSize = mcs → w.cap = none →
      w.data.length ≤ w.pos → input.length ≠ 0 →
      WriteLoop c w input =
        (input.length,
          { data := w.data ++ List.replicate (w.pos - w.data.length) 0 ++
              encodeFrames (compChunks c mcs input),
            pos := w.pos + (encodeFrames (compChunks c mcs input)).length,
            maxChunkSize := mcs, size := w.size + input.length, cap := none }) := by
  intro w input
  induction w, input using WriteLoop.induct c with
  | case1 w input h =>
    intro _ _ _ hne
    exact absurd h hne
  | case2 w input hn h0 =>
    intro hmcs _ _ _
    rw [hmcs] at h0
    exact absurd h0 hm
  | case3 w input hn h0 ucs hcnone =>
    intro hmcs _ _ _
    obtain ⟨z, hz, -, -⟩ := hcomp (input.take ucs) (by
        rw [List.length_take]
        simp only [ucs, hmcs]
        omega)
      (by
        rw [List.length_take]
        simp only [ucs, hmcs]
        omega)
    rw [hz] at hcnone
    exact absurd hcnone (by simp)
  | case4 w input hn h0 ucs z hz hw1 =>
    intro _ hcap _ _
    rw [fwriteW_none _ hcap] at hw1
    exact absurd hw1 (by simp)
  | case5 w input hn h0 ucs z hz w1 hw1 hw2 =>
    intro _ hcap _ _
    rw [fwriteW_none _ hcap] at hw1
    simp only [Option.some.injEq] at hw1
    subst hw1
    simp [fwriteW, hcap] at hw2
  | case6 w input hn h0 ucs z hz w1 hw1 w2 hw2 ih =>
    intro hmcs hcap hlp hne
    rw [WL_step hn h0 hz hw1 hw2]
    rw [fwriteW_none _ hcap] at hw1
    simp only [Option.some.injEq] at hw1
    subst hw1
    simp only [fwriteW, hcap, Option.some.injEq] at hw2
    subst hw2
    dsimp only at ih ⊢
    have hdata1 : writeAt w.data w.pos (u32le z.length) =
        w.data ++ List.replicate (w.pos - w.data.length) 0 ++ u32le z.length :=
      writeAt_append _ hlp
    have hlen1 : (writeAt w.data w.pos (u32le z.length)).length = w.pos + 4 := by
      rw [hdata1]
      simp [length_u32le]
      omega
    have hdata2 : writeAt (writeAt w.data w.pos (u32le z.length))
        (w.pos + (u32le z.length).length) z =
        w.data ++ List.replicate (w.pos - w.data.length) 0 ++ encodeFrame z := by
      rw [writeAt_append z (by rw [hlen1, length_u32le])]
      rw [hlen1, length_u32le, Nat.sub_self, List.replicate_zero, List.append_nil, hdata1]
      simp [encodeFrame]
    have hlen2 : (writeAt (writeAt w.data w.pos (u32le z.length))
        (w.pos + (u32le z.length).length) z).length = w.pos + 4 + z.length := by
      rw [hdata2]
      simp [length_encodeFrame]
      omega
    have hchunks : compChunks c mcs input = z :: compChunks c mcs (input.drop ucs) := by
      unfold compChunks
      rw [chunksOf_cons hm hne]
      simp only [List.map_cons]
      have : ucs = min mcs input.length := by simp only [ucs, hmcs]
      rw [← this, hz]
      rfl
    by_cases hrest : (input.drop ucs).length = 0
    · have hucs : ucs = input.length := by
        simp only [List.length_drop] at hrest
        simp only [ucs, hmcs]
        omega
      rw [WL_nil hrest]
      have hchunks2 : compChunks c mcs (input.drop ucs) = [] := by
        rw [List.length_eq_zero] at hrest
        rw [hrest]
        unfold compChunks
        rw [chunksOf_nil]
        rfl
      rw [hchunks, hchunks2, encodeFrames_cons, encodeFrames_nil, List.append_nil]
      simp only [Prod.mk.injEq, RZipWriter.mk.injEq]
      refine ⟨by omega, ?_, ?_, hmcs, by omega, trivial⟩
      · rw [hdata2]
      · rw [length_encodeFrame, length_u32le]
        omega
    · have ihh := ih hmcs rfl (le_of_eq (by rw [hlen2, length_u32le])) hrest
      rw [ihh]
      simp only [Prod.mk.injEq, RZipWriter.mk.injEq]
      refine ⟨?_, ?_, ?_, trivial, ?_, trivial⟩
      · simp only [List.length_drop]
        simp only [ucs, hmcs]
        omega
      · rw [hdata2, hchunks, encodeFrames_cons]
        have hc0 : w.pos + (u32le z.length).length + z.length -
            (w.data ++ List.replicate (w.pos - w.data.length) 0 ++ encodeFrame z).length = 0 := by
          simp [length_encodeFrame, length_u32le]
          omega
        rw [hc0, List.replicate_zero]
        simp [List.append_assoc]
      · rw [hchunks, encodeFrames_cons]
        simp only [List.length_append, length_encodeFrame, length_u32le]
        omega
      · simp only [List.length_drop]
        simp only [ucs, hmcs]
        omega

/-! Remaining Write loop step lemmas and fwriteW inversion. -/

theorem WL_mcs0 {c : Codec} {w : RZipWriter} {input : List Nat}
    (hn : input.length ≠ 0) (h0 : w.maxChunkSize = 0) :
    WriteLoop c w input = (0, w) := by
  unfold WriteLoop
  rw [if_neg hn, if_pos h0]

theorem WL_compFail {c : Codec} {w : RZipWriter} {input : List Nat}
    (hn : input.length ≠ 0) (h0 : w.maxChunkSize ≠ 0)
    (hz : c.comp (input.take (min w.maxChunkSize input.length)) = none) :
    WriteLoop c w input = (0, w) := by
  unfold WriteLoop
  rw [if_neg hn, if_neg h0]
  simp only [hz]

theorem WL_w1Fail {c : Codec} {w : RZipWriter} {input : List Nat} {z : List Nat}
    (hn : input.length ≠ 0) (h0 : w.maxChunkSize ≠ 0)
    (hz : c.comp (input.take (min w.maxChunkSize input.length)) = some z)
    (hw1 : fwriteW w (u32le z.length) = none) :
    WriteLoop c w input = (0, w) := by
  unfold WriteLoop
  rw [if_neg hn, if_neg h0]
  simp only [hz, hw1]

theorem WL_w2Fail {c : Codec} {w w1 : RZipWriter} {input : List Nat} {z : List Nat}
    (hn : input.length ≠ 0) (h0 : w.maxChunkSize ≠ 0)
    (hz : c.comp (input.take (min w.maxChunkSize input.length)) = some z)
    (hw1 : fwriteW w (u32le z.length) = some w1)
    (hw2 : fwriteW w1 z = none) :
    WriteLoop c w input = (0, w1) := by
  unfold WriteLoop
  rw [if_neg hn, if_neg h0]
  simp only [hz, hw1, hw2]

theorem fwriteW_some {w w' : RZipWriter} {bs : List Nat} (h : fwriteW w bs = some w') :
    w' = { w with data := writeAt w.data w.pos bs, pos := w.pos + bs.length } := by
  unfold fwriteW at h
  split at h
  · split at h
    · simp only [Option.some.injEq] at h
      exact h.symm
    · exact absurd h (by simp)
  · simp only [Option.some.injEq] at h
    exact h.symm

theorem fwriteW_cap {w w' : RZipWriter} {bs : List Nat} (h : fwriteW w bs = some w') :
    w'.cap = w.cap ∧ w'.size = w.size ∧ w'.maxChunkSize = w.maxChunkSize := by
  rw [fwriteW_some h]
  exact ⟨rfl, rfl, rfl⟩

/-- Whatever happens inside the chunk loop of Write (completion, codec
failure, or short write), the cursor stays at the end of the materialized
file, size grows by exactly the accepted count, and at most the input is
accepted. -/
theorem WriteLoop_inv (c : Codec) :
    ∀ (w : RZipWriter) (input : List Nat), w.pos = max w.data.length 20 →
      (WriteLoop c w input).2.pos = max (WriteLoop c w input).2.data.length 20 ∧
      (WriteLoop c w input).2.size = w.size + (WriteLoop c w input).1 ∧
      (WriteLoop c w input).1 ≤ input.length ∧
      (WriteLoop c w input).2.cap = w.cap := by
  intro w input
  induction w, input using WriteLoop.induct c with
  | case1 w input h =>
    intro hp
    rw [WL_nil h]
    exact ⟨hp, rfl, by omega, rfl⟩
  | case2 w input hn h0 =>
    intro hp
    rw [WL_mcs0 hn h0]
    exact ⟨hp, rfl, by omega, rfl⟩
  | case3 w input hn h0 ucs hz =>
    intro hp
    rw [WL_compFail hn h0 hz]
    exact ⟨hp, rfl, by omega, rfl⟩
  | case4 w input hn h0 ucs z hz hw1 =>
    intro hp
    rw [WL_w1Fail hn h0 hz hw1]
    exact ⟨hp, rfl, by omega, rfl⟩
  | case5 w input hn h0 ucs z hz w1 hw1 hw2 =>
    intro hp
    rw [WL_w2Fail hn h0 hz hw1 hw2]
    rw [fwriteW_some hw1]
    refine ⟨?_, rfl, by omega, rfl⟩
    simp only [length_writeAt, length_u32le]
    omega
  | case6 w input hn h0 ucs z hz w1 hw1 w2 hw2 ih =>
    intro hp
    rw [WL_step hn h0 hz hw1 hw2]
    have e1 := fwriteW_some hw1
    have e2 := fwriteW_some hw2
    have hpos1 : w1.pos = max w1.data.length 20 := by
      rw [e1]
      dsimp only
      rw [length_writeAt, length_u32le]
      omega
    have hpos2 : w2.pos = max w2.data.length 20 := by
      rw [e2]
      dsimp only
      rw [length_writeAt]
      omega
    have hc1 := fwriteW_cap hw1
    have hc2 := fwriteW_cap hw2
    have hud : ucs = min w.maxChunkSize input.length := rfl
    have ihh := ih hpos2
    rw [hud] at ihh
    have hsz2 : w2.size = w.size := hc2.2.1.trans hc1.2.1
    have hcap2 : w2.cap = w.cap := hc2.1.trans hc1.1
    refine ⟨ihh.1, ?_, ?_, ?_⟩
    · rw [ihh.2.1]
      dsimp only
      omega
    · have h3 := ihh.2.2.1
      simp only [List.length_drop] at h3
      omega
    · rw [ihh.2.2.2]
      dsimp only
      exact hcap2

/-- C7: after every Write call that returns (its chunk loop may have
completed, stopped on a codec error, or stopped on a short write), the
8-byte total-size field at file offset 12 holds exactly the cumulative
number of uncompressed bytes accepted so far (the handle's size, which grew
by exactly this call's return value), and the cursor is back at the end of
the materialized file, where the next chunk frame will be written. -/
theorem write_header_fresh (c : Codec) (w : RZipWriter) (input : List Nat)
    (rv : Nat) (w' : RZipWriter)
    (hpos : w.pos = max w.data.length 20)
    (h : Write c w input = some (rv, w')) :
    (w'.data.drop 12).take 8 = u64le w'.size ∧
    w'.size = w.size + rv ∧ rv ≤ input.length ∧
    w'.pos = max w'.data.length 20 := by
  obtain ⟨hinv, hsz, hrv, hcap⟩ := WriteLoop_inv c w input hpos
  unfold Write at h
  dsimp only at h
  split at h
  · exact absurd h (by simp)
  · rename_i w2 hfw
    simp only [Option.some.injEq, Prod.mk.injEq] at h
    obtain ⟨hrv2, hw2'⟩ := h
    subst hrv2
    subst hw2'
    have e2 := fwriteW_some hfw
    rw [e2]
    dsimp only
    refine ⟨?_, hsz, hrv, ?_⟩
    · have hsl := slice_writeAt (WriteLoop c w input).2.data (8 + 4)
        (u64le (WriteLoop c w input).2.size)
      rw [length_u64le] at hsl
      exact hsl
    · rw [length_writeAt, length_u64le]
      omega

/-- C5 counterexample: opening a write handle and closing it with no Write
calls leaves a 12-byte file (the reserved 8 size bytes are never written, so
the seek past them does not extend the file), not the 20-byte file the claim
asserts, and re-opening it in read mode fails instead of succeeding. -/
theorem empty_close_cex :
    ((OpenW none).map fun w => (closeW w).length) = some 12 ∧
    ¬ (((OpenW none).map fun w => (closeW w).length) = some 20 ∧
       ((OpenW none).map fun w => (OpenRead (closeW w)).isSome) = some true) := by
  refine ⟨by decide, ?_⟩
  intro hc
  exact absurd (hc.1.symm.trans (by decide : ((OpenW none).map fun w => (closeW w).length) = some 12)) (by decide)

/-- C5 amended: Open in write mode immediately followed by Close (no Write
calls) leaves exactly the 12 bytes magic plus little-endian 1048576 on disk;
the reserved size field is never materialized, and re-opening the file in
read mode fails because the 8-byte size field cannot be read. -/
theorem empty_close_amended :
    (OpenW none).map closeW = some (RZipHeader ++ u32le (1024 * 1024)) ∧
    ((OpenW none).map fun w => OpenRead (closeW w)) = some none := by
  constructor
  · decide
  · decide

/-! Write on a handle whose stream never fails. -/

theorem Write_eq_some {c : Codec} {w : RZipWriter} {input : List Nat}
    (hcap : (WriteLoop c w input).2.cap = none) :
    Write c w input = some ((WriteLoop c w input).1,
      { data := writeAt (WriteLoop c w input).2.data (8 + 4)
          (u64le (WriteLoop c w input).2.size),
        pos := (WriteLoop c w input).2.pos,
        maxChunkSize := (WriteLoop c w input).2.maxChunkSize,
        size := (WriteLoop c w input).2.size,
        cap := (WriteLoop c w input).2.cap }) := by
  unfold Write fwriteW
  dsimp only
  rw [hcap]

/-- The sample codec satisfies the compressor contract at the standard
maximum chunk size. -/
theorem sampleCodec_compOk : CompOk sampleCodec (1024 * 1024) := by
  intro p h0 hm
  refine ⟨255 :: p, rfl, by simp, ?_⟩
  simp only [List.length_cons]
  omega

theorem sampleCodec_roundTrip : RoundTripOk sampleCodec := by
  intro p z hz
  simp only [sampleCodec] at hz
  simp only [Option.some.injEq] at hz
  subst hz
  rfl

theorem compChunks_single {c : Codec} {mcs : Nat} {p : List Nat}
    (hm : mcs ≠ 0) (h0 : p.length ≠ 0) (hpm : p.length ≤ mcs) :
    compChunks c mcs p = [(c.comp p).getD []] := by
  unfold compChunks
  rw [chunksOf_cons hm h0]
  have hmin : min mcs p.length = p.length := by omega
  rw [hmin, List.take_length, List.drop_length, chunksOf_nil]
  rfl

theorem compChunks_nil (c : Codec) (mcs : Nat) : compChunks c mcs [] = [] := by
  unfold compChunks
  rw [chunksOf_nil]
  rfl

/-- First Write on a fresh handle: the 8 reserved bytes get materialized by
the frame writes (or by the size rewrite itself when the input is empty) and
the handle reaches the healthy steady state. -/
theorem Write_w0 (c : Codec) (hcomp : CompOk c (1024 * 1024)) (input : List Nat) :
    Write c w0def input = some (input.length,
      { data := RZipHeader ++ u32le (1024 * 1024) ++ u64le input.length ++
          encodeFrames (compChunks c (1024 * 1024) input),
        pos := 20 + (encodeFrames (compChunks c (1024 * 1024) input)).length,
        maxChunkSize := 1024 * 1024, size := input.length, cap := none }) ∧
    WSt { data := RZipHeader ++ u32le (1024 * 1024) ++ u64le input.length ++
            encodeFrames (compChunks c (1024 * 1024) input),
          pos := 20 + (encodeFrames (compChunks c (1024 * 1024) input)).length,
          maxChunkSize := 1024 * 1024, size := input.length, cap := none }
      input.length (compChunks c (1024 * 1024) input) := by
  constructor
  · by_cases hne : input.length = 0
    · rw [List.length_eq_zero] at hne
      subst hne
      have hl : WriteLoop c w0def [] = (0, w0def) := WL_nil rfl
      rw [Write_eq_some (by rw [hl]; try rfl)]
      rw [hl]
      dsimp only
      have hlen0 : w0def.data.length = 12 := by
        simp [w0def, length_RZipHeader, length_u32le]
      rw [writeAt_append (u64le w0def.size) (by omega)]
      rw [compChunks_nil, encodeFrames_nil]
      simp [w0def, List.append_assoc, length_RZipHeader, length_u32le]
    · have hl := WriteLoop_spec c (1024 * 1024) (by norm_num) hcomp w0def input rfl rfl
        (by simp [w0def, length_RZipHeader, length_u32le]) hne
      rw [Write_eq_some (by rw [hl]; try rfl)]
      rw [hl]
      dsimp only
      have hgap : w0def.pos - w0def.data.length = 8 := by
        simp [w0def, length_RZipHeader, length_u32le]
      rw [hgap]
      have hmid : writeAt (w0def.data ++ List.replicate 8 0 ++
            encodeFrames (compChunks c (1024 * 1024) input)) (8 + 4)
            (u64le (w0def.size + input.length)) =
          w0def.data ++ u64le (w0def.size + input.length) ++
            encodeFrames (compChunks c (1024 * 1024) input) :=
        writeAt_mid _ (by simp [w0def, length_RZipHeader, length_u32le])
          (by simp [length_u64le])
      rw [hmid]
      simp [w0def, List.append_assoc]
  · refine ⟨rfl, rfl, rfl, rfl, ?_⟩
    simp [length_RZipHeader, length_u32le, length_u64le, List.append_assoc]
    omega

/-- Subsequent Writes on a healthy handle stay in the steady state,
appending this call's frames and refreshing the size field. -/
theorem Write_wst (c : Codec) (hcomp : CompOk c (1024 * 1024)) (w : RZipWriter)
    (input : List Nat) (sz : Nat) (zs : List (List Nat)) (hw : WSt w sz zs) :
    Write c w input = some (input.length,
      { data := RZipHeader ++ u32le (1024 * 1024) ++ u64le (sz + input.length) ++
          encodeFrames (zs ++ compChunks c (1024 * 1024) input),
        pos := 20 + (encodeFrames (zs ++ compChunks c (1024 * 1024) input)).length,
        maxChunkSize := 1024 * 1024, size := sz + input.length, cap := none }) ∧
    WSt { data := RZipHeader ++ u32le (1024 * 1024) ++ u64le (sz + input.length) ++
            encodeFrames (zs ++ compChunks c (1024 * 1024) input),
          pos := 20 + (encodeFrames (zs ++ compChunks c (1024 * 1024) input)).length,
          maxChunkSize := 1024 * 1024, size := sz + input.length, cap := none }
      (sz + input.length) (zs ++ compChunks c (1024 * 1024) input) := by
  obtain ⟨hcap, hmcs, hsz, hdata, hpos⟩ := hw
  have hp12 : (8 + 4 : Nat) = (RZipHeader ++ u32le (1024 * 1024)).length := by
    simp [length_RZipHeader, length_u32le]
  have hwlen : w.data.length = 20 + (encodeFrames zs).length := by
    rw [hdata]
    simp [length_RZipHeader, length_u32le, length_u64le]
    omega
  constructor
  · by_cases hne : input.length = 0
    · rw [List.length_eq_zero] at hne
      subst hne
      have hl : WriteLoop c w [] = (0, w) := WL_nil rfl
      rw [Write_eq_some (by rw [hl]; exact hcap)]
      rw [hl]
      dsimp only
      have hmid : writeAt w.data (8 + 4) (u64le w.size) =
          (RZipHeader ++ u32le (1024 * 1024)) ++ u64le sz ++ encodeFrames zs := by
        rw [hdata, hsz]
        exact writeAt_mid (u64le sz) hp12 rfl
      rw [hmid, compChunks_nil, List.append_nil, hsz, hpos, hwlen]
      simp [List.append_assoc]
      exact ⟨by rw [hmcs], hcap⟩
    · have hl := WriteLoop_spec c (1024 * 1024) (by norm_num) hcomp w input hmcs hcap
        (le_of_eq hpos.symm) hne
      rw [Write_eq_some (by rw [hl]; try rfl)]
      rw [hl]
      dsimp only
      rw [hpos, Nat.sub_self, List.replicate_zero, List.append_nil]
      have hmid : writeAt (w.data ++ encodeFrames (compChunks c (1024 * 1024) input))
          (8 + 4) (u64le (w.size + input.length)) =
          (RZipHeader ++ u32le (1024 * 1024)) ++ u64le (w.size + input.length) ++
            (encodeFrames zs ++ encodeFrames (compChunks c (1024 * 1024) input)) := by
        rw [hdata, List.append_assoc (RZipHeader ++ u32le (1024 * 1024) ++ u64le sz)
            (encodeFrames zs) (encodeFrames (compChunks c (1024 * 1024) input))]
        exact writeAt_mid (u64le (w.size + input.length)) hp12 rfl
      rw [hmid, hsz, hwlen]
      simp [encodeFrames_append, List.append_assoc]
      omega
  · refine ⟨rfl, rfl, rfl, rfl, ?_⟩
    simp [length_RZipHeader, length_u32le, length_u64le, List.append_assoc]
    omega

/-- A whole sequence of Write calls on a healthy handle: all inputs are
accepted and every call's frames are appended in order. -/
theorem WriteAll_wst (c : Codec) (hcomp : CompOk c (1024 * 1024)) :
    ∀ (ws : List (List Nat)) (w : RZipWriter) (sz : Nat) (zs : List (List Nat)),
      WSt w sz zs →
      ∃ wF, WriteAll c w ws = some wF ∧
        WSt wF (sz + ws.flatten.length)
          (zs ++ (ws.map fun i => compChunks c (1024 * 1024) i).flatten) := by
  intro ws
  induction ws with
  | nil =>
    intro w sz zs hw
    refine ⟨w, rfl, ?_⟩
    simpa using hw
  | cons i rest ih =>
    intro w sz zs hw
    obtain ⟨heq, hwst⟩ := Write_wst c hcomp w i sz zs hw
    obtain ⟨wF, hWA, hWSt⟩ := ih _ (sz + i.length) (zs ++ compChunks c (1024 * 1024) i) hwst
    refine ⟨wF, ?_, ?_⟩
    · unfold WriteAll
      rw [heq]
      exact hWA
    · have e1 : sz + ((i :: rest).flatten).length = sz + i.length + rest.flatten.length := by
        simp only [List.flatten_cons, List.length_append]
        omega
      have e2 : zs ++ ((i :: rest).map fun j => compChunks c (1024 * 1024) j).flatten =
          (zs ++ compChunks c (1024 * 1024) i) ++
            (rest.map fun j => compChunks c (1024 * 1024) j).flatten := by
        simp [List.append_assoc]
      rw [e1, e2]
      exact hWSt

/-! The frames a correct codec produces are good and decode back. -/

theorem comp_frameOut (c : Codec) (mcs : Nat) (hcomp : CompOk c mcs)
    (hrt : RoundTripOk c) (p : List Nat) (hp0 : p.length ≠ 0) (hpm : p.length ≤ mcs) :
    frameOut c mcs ((c.comp p).getD []) = some p ∧
    GoodFrame c mcs ((c.comp p).getD []) := by
  obtain ⟨z, hz, hz0, hz32⟩ := hcomp p hp0 hpm
  rw [hz, Option.getD_some]
  have hfo : frameOut c mcs z = some p := by
    unfold frameOut
    rw [if_neg hz0, hrt p z hz]
    simp [hpm]
  exact ⟨hfo, hz32, by rw [hfo]; rfl⟩

theorem compChunks_goodFrames (c : Codec) (mcs : Nat) (hm : mcs ≠ 0)
    (hcomp : CompOk c mcs) (hrt : RoundTripOk c) (input : List Nat) :
    ∀ z ∈ compChunks c mcs input, GoodFrame c mcs z := by
  intro z hz
  unfold compChunks at hz
  obtain ⟨p, hp, hpz⟩ := List.mem_map.mp hz
  obtain ⟨hp0, hpm⟩ := chunksOf_mem mcs hm input p hp
  rw [← hpz]
  exact (comp_frameOut c mcs hcomp hrt p hp0 hpm).2

theorem logicalStream_compChunks (c : Codec) (mcs : Nat) (hm : mcs ≠ 0)
    (hcomp : CompOk c mcs) (hrt : RoundTripOk c) (input : List Nat) :
    logicalStream c mcs (compChunks c mcs input) = input := by
  unfold logicalStream compChunks
  rw [List.map_map]
  have hcg : ∀ p ∈ chunksOf mcs input,
      ((fun z => (frameOut c mcs z).getD []) ∘ fun q => (c.comp q).getD []) p = id p := by
    intro p hp
    obtain ⟨hp0, hpm⟩ := chunksOf_mem mcs hm input p hp
    simp only [Function.comp_apply, id_eq]
    rw [(comp_frameOut c mcs hcomp hrt p hp0 hpm).1, Option.getD_some]
  rw [List.map_congr_left hcg, List.map_id]
  exact chunksOf_flatten mcs hm input

theorem map_dropLast {α β : Type} (f : α → β) :
    ∀ l : List α, (l.map f).dropLast = l.dropLast.map f := by
  intro l
  induction l with
  | nil => rfl
  | cons a t ih =>
    cases t with
    | nil => rfl
    | cons b t2 =>
      simp only [List.map_cons, List.dropLast_cons₂]
      rw [← List.map_cons f b t2, ih]

/-- C6 counterexample: two Write calls of one byte each (max chunk size
1024*1024) produce an archive whose first chunk frame is not the last and
decompresses to a single byte, not to the maximum chunk size: chunking is
per-Write-call, not global. -/
theorem chunk_uniform_cex :
    ((Write sampleCodec w0def [7]).bind fun r1 =>
      (Write sampleCodec r1.2 [8]).map fun r2 => closeW r2.2) =
      some (RZipHeader ++ u32le (1024 * 1024) ++ u64le 2 ++
        encodeFrames [[255, 7], [255, 8]]) ∧
    ¬ (∀ z ∈ ([[255, 7], [255, 8]] : List (List Nat)).dropLast,
        ((frameOut sampleCodec (1024 * 1024) z).getD []).length = 1024 * 1024) := by
  constructor
  · have h1 := Write_w0 sampleCodec sampleCodec_compOk [7]
    have h2 := Write_wst sampleCodec sampleCodec_compOk _ [8] _ _ h1.2
    have hc7 : compChunks sampleCodec (1024 * 1024) [7] = [[255, 7]] := by
      rw [compChunks_single (by norm_num) (by simp) (by simp)]
      rfl
    have hc8 : compChunks sampleCodec (1024 * 1024) [8] = [[255, 8]] := by
      rw [compChunks_single (by norm_num) (by simp) (by simp)]
      rfl
    rw [h1.1, Option.some_bind, h2.1, Option.map_some']
    simp [closeW, hc7, hc8]
  · decide

/-- C6 amended: chunk uniformity holds per Write call: a single Write call
splits its input into chunks of min(maxChunkSize, remaining) bytes, so in
the archive it produces every frame except possibly the last decompresses
to exactly maxChunkSize bytes, and together the frames decompress back to
exactly the input (the last holding the remainder). -/
theorem chunk_uniform_amended (c : Codec) (input : List Nat)
    (hcomp : CompOk c (1024 * 1024)) (hrt : RoundTripOk c) :
    Write c w0def input = some (input.length,
      { data := RZipHeader ++ u32le (1024 * 1024) ++ u64le input.length ++
          encodeFrames (compChunks c (1024 * 1024) input),
        pos := 20 + (encodeFrames (compChunks c (1024 * 1024) input)).length,
        maxChunkSize := 1024 * 1024, size := input.length, cap := none }) ∧
    (∀ z ∈ (compChunks c (1024 * 1024) input).dropLast,
        ((frameOut c (1024 * 1024) z).getD []).length = 1024 * 1024) ∧
    logicalStream c (1024 * 1024) (compChunks c (1024 * 1024) input) = input := by
  refine ⟨(Write_w0 c hcomp input).1, ?_,
    logicalStream_compChunks c _ (by norm_num) hcomp hrt input⟩
  intro z hz
  unfold compChunks at hz
  rw [map_dropLast] at hz
  obtain ⟨p, hp, hpz⟩ := List.mem_map.mp hz
  have hpl : p.length = 1024 * 1024 := chunksOf_dropLast _ (by norm_num) input p hp
  have hp0 : p.length ≠ 0 := by omega
  have hpm : p.length ≤ 1024 * 1024 := le_of_eq hpl
  rw [← hpz, (comp_frameOut c _ hcomp hrt p hp0 hpm).1, Option.getD_some, hpl]

/-- C6 amended witness: a single one-byte Write. -/
theorem chunk_uniform_amended_witness :
    Write sampleCodec w0def [7] = some (1,
      { data := RZipHeader ++ u32le (1024 * 1024) ++ u64le 1 ++
          encodeFrames (compChunks sampleCodec (1024 * 1024) [7]),
        pos := 20 + (encodeFrames (compChunks sampleCodec (1024 * 1024) [7])).length,
        maxChunkSize := 1024 * 1024, size := 1, cap := none }) ∧
    (∀ z ∈ (compChunks sampleCodec (1024 * 1024) [7]).dropLast,
        ((frameOut sampleCodec (1024 * 1024) z).getD []).length = 1024 * 1024) ∧
    logicalStream sampleCodec (1024 * 1024)
      (compChunks sampleCodec (1024 * 1024) [7]) = [7] :=
  chunk_uniform_amended sampleCodec [7] sampleCodec_compOk sampleCodec_roundTrip

/-- C7 witness: one Write of a single byte on a fresh write handle. -/
theorem write_header_fresh_witness :
    (w0def.pos = max w0def.data.length 20) ∧
    ((RZipHeader ++ u32le (1024 * 1024) ++ u64le 1 ++
        encodeFrames (compChunks sampleCodec (1024 * 1024) [7])).drop 12).take 8 =
      u64le 1 := by
  constructor
  · decide
  · have h := write_header_fresh sampleCodec w0def [7] 1
      { data := RZipHeader ++ u32le (1024 * 1024) ++ u64le 1 ++
          encodeFrames (compChunks sampleCodec (1024 * 1024) [7]),
        pos := 20 + (encodeFrames (compChunks sampleCodec (1024 * 1024) [7])).length,
        maxChunkSize := 1024 * 1024, size := 1, cap := none }
      (by decide) (Write_w0 sampleCodec sampleCodec_compOk [7]).1
    exact h.1

/-! Parsing the head frame of a well-formed frame region. -/

theorem logicalStream_nil (c : Codec) (mcs : Nat) : logicalStream c mcs [] = [] := rfl

theorem logicalStream_cons (c : Codec) (mcs : Nat) (z : List Nat) (zs : List (List Nat)) :
    logicalStream c mcs (z :: zs) =
      (frameOut c mcs z).getD [] ++ logicalStream c mcs zs := by
  simp [logicalStream]

theorem logicalStream_append (c : Codec) (mcs : Nat) (zs₁ zs₂ : List (List Nat)) :
    logicalStream c mcs (zs₁ ++ zs₂) =
      logicalStream c mcs zs₁ ++ logicalStream c mcs zs₂ := by
  simp [logicalStream]

/-- If the file tail at pos is a nonempty well-formed frame sequence, the
4-byte length read succeeds and identifies the head frame. -/
theorem frames_head {c : Codec} {mcs : Nat} {data : List Nat} {pos : Nat}
    {zs : List (List Nat)} {bs : List Nat} {p1 : Nat}
    (hd : data.drop pos = encodeFrames zs)
    (hg : ∀ z ∈ zs, GoodFrame c mcs z)
    (h1 : freadBytes data pos 4 = some (bs, p1)) :
    ∃ z rest, zs = z :: rest ∧ bs = u32le z.length ∧ leVal bs = z.length ∧
      p1 = pos + 4 ∧ data.drop p1 = z ++ encodeFrames rest := by
  obtain ⟨hle, hbs, hp1⟩ := freadBytes_eq_some.mp h1
  cases zs with
  | nil =>
    exfalso
    have := congrArg List.length hd
    simp [encodeFrames_nil] at this
    omega
  | cons z rest =>
    refine ⟨z, rest, rfl, ?_, ?_, hp1, ?_⟩
    · rw [hbs, hd, encodeFrames_cons]
      unfold encodeFrame
      rw [List.append_assoc, ← length_u32le z.length, List.take_left]
    · have hlt := (hg z (by simp)).1
      rw [hbs, hd, encodeFrames_cons]
      unfold encodeFrame
      rw [List.append_assoc, ← length_u32le z.length, List.take_left,
          leVal_u32le, Nat.mod_eq_of_lt hlt]
    · rw [hp1, ← List.drop_drop, hd, encodeFrames_cons]
      unfold encodeFrame
      rw [List.append_assoc, ← length_u32le z.length, List.drop_left]

/-- After reading the head frame's length, reading its payload succeeds and
returns exactly the compressed bytes. -/
theorem frames_payload {data : List Nat} {p1 : Nat} {z : List Nat}
    {rest : List (List Nat)}
    (hd : data.drop p1 = z ++ encodeFrames rest) (h0 : z.length ≠ 0) :
    freadBytes data p1 z.length = some (z, p1 + z.length) :=
  freadBytes_prefix hd rfl (by omega)

/-- Central reader lemma: a state holding logical byte stream L returns its
first len bytes from Read and afterwards holds the rest. -/
theorem Read_spec (c : Codec) :
    ∀ (st : RZipReader) (len : Nat), ∀ L : List Nat, Represents c st L →
      (Read c st len).1 = L.take len ∧ Represents c (Read c st len).2 (L.drop len) := by
  intro st len
  induction st, len using Read.induct c with
  | case1 st =>
    intro L hrep
    rw [Read_zero]
    simpa using hrep
  | case2 st len hn hci h1 =>
    intro L hrep
    obtain ⟨zs, hpos, hd, hg, hcile, hcs, hL⟩ := hrep
    have hnone := freadBytes_eq_none.mp h1
    have hzs : zs = [] := by
      cases zs with
      | nil => rfl
      | cons z rest =>
        exfalso
        have := congrArg List.length hd
        rw [encodeFrames_cons] at this
        simp [length_encodeFrame] at this
        omega
    subst hzs
    have hLnil : L = [] := by
      rw [← hL, hci, hcs, List.drop_length, logicalStream_nil]
      rfl
    subst hLnil
    rw [Read_fail4 hn hci h1]
    exact ⟨by simp, ⟨[], hpos, hd, by simp, Nat.le_refl 0, rfl,
      by simp [logicalStream_nil]⟩⟩
  | case3 st len hn hci st0 bs p1 h1 hz ih =>
    intro L hrep
    obtain ⟨zs, hpos, hd, hg, hcile, hcs, hL⟩ := hrep
    obtain ⟨z, rest, hzs, hbs, hlv, hp1, hd1⟩ := frames_head hd hg h1
    subst hzs
    have hz0 : z = [] := by
      rw [hlv] at hz
      exact List.length_eq_zero.mp hz
    subst hz0
    rw [Read_zeroFrame hn hci h1 hz]
    apply ih
    refine ⟨rest, ?_, ?_, ?_, Nat.le_refl 0, rfl, ?_⟩
    · show p1 ≤ st.data.length
      obtain ⟨hle, -, -⟩ := freadBytes_eq_some.mp h1
      omega
    · simpa using hd1
    · intro zz hzz
      exact hg zz (by simp [hzz])
    · rw [← hL, hci, hcs, List.drop_length, logicalStream_cons]
      simp [frameOut]
  | case4 st len hn hci bs p1 h1 hz h2 =>
    intro L hrep
    obtain ⟨zs, hpos, hd, hg, hcile, hcs, hL⟩ := hrep
    obtain ⟨z, rest, hzs, hbs, hlv, hp1, hd1⟩ := frames_head hd hg h1
    exfalso
    rw [hlv] at hz h2
    rw [frames_payload hd1 hz] at h2
    exact absurd h2 (by simp)
  | case5 st len hn hci bs p1 h1 hz zbs p2 h2 h3 =>
    intro L hrep
    obtain ⟨zs, hpos, hd, hg, hcile, hcs, hL⟩ := hrep
    obtain ⟨z, rest, hzs, hbs, hlv, hp1, hd1⟩ := frames_head hd hg h1
    exfalso
    subst hzs
    have hz0 : z.length ≠ 0 := by
      rw [← hlv]
      exact hz
    have h2' := h2
    rw [hlv, frames_payload hd1 hz0] at h2'
    simp only [Option.some.injEq, Prod.mk.injEq] at h2'
    obtain ⟨hzbs, hp2⟩ := h2'
    have hgood := (hg z (by simp)).2
    unfold frameOut at hgood
    rw [if_neg hz0, hzbs, h3] at hgood
    simp at hgood
  | case6 st len hn hci st0 bs p1 h1 hz zbs p2 h2 d h3 h4 ih =>
    intro L hrep
    obtain ⟨zs, hpos, hd, hg, hcile, hcs, hL⟩ := hrep
    obtain ⟨z, rest, hzs, hbs, hlv, hp1, hd1⟩ := frames_head hd hg h1
    subst hzs
    have hz0 : z.length ≠ 0 := by
      rw [← hlv]
      exact hz
    have h2' := h2
    rw [hlv, frames_payload hd1 hz0] at h2'
    simp only [Option.some.injEq, Prod.mk.injEq] at h2'
    obtain ⟨hzbs, hp2⟩ := h2'
    have hfo : frameOut c st.maxChunkSize z = some d := by
      unfold frameOut
      rw [if_neg hz0, hzbs, h3]
      simp [h4]
    rw [Read_refill hn hci h1 hz h2 h3 h4]
    apply ih
    refine ⟨rest, ?_, ?_, ?_, Nat.zero_le _, rfl, ?_⟩
    · show p2 ≤ st.data.length
      obtain ⟨hle, -, hp2'⟩ := freadBytes_eq_some.mp h2
      omega
    · show st.data.drop p2 = encodeFrames rest
      rw [← hp2, ← List.drop_drop, hd1]
      exact List.drop_left z (encodeFrames rest)
    · intro zz hzz
      exact hg zz (by simp [hzz])
    · rw [← hL, hci, hcs, List.drop_length, logicalStream_cons, hfo]
      simp
  | case7 st len hn hci bs p1 h1 hz zbs p2 h2 d h3 h4 =>
    intro L hrep
    obtain ⟨zs, hpos, hd, hg, hcile, hcs, hL⟩ := hrep
    obtain ⟨z, rest, hzs, hbs, hlv, hp1, hd1⟩ := frames_head hd hg h1
    exfalso
    subst hzs
    have hz0 : z.length ≠ 0 := by
      rw [← hlv]
      exact hz
    have h2' := h2
    rw [hlv, frames_payload hd1 hz0] at h2'
    simp only [Option.some.injEq, Prod.mk.injEq] at h2'
    obtain ⟨hzbs, hp2⟩ := h2'
    have hgood := (hg z (by simp)).2
    unfold frameOut at hgood
    rw [if_neg hz0, hzbs, h3] at hgood
    simp [h4] at hgood
  | case8 st len hn hci hg2 =>
    intro L hrep
    obtain ⟨zs, hpos, hd, hg, hcile, hcs, hL⟩ := hrep
    exact absurd hcile (by omega)
  | case9 st len hn hci hgd l ih =>
    intro L hrep
    obtain ⟨zs, hpos, hd, hg, hcile, hcs, hL⟩ := hrep
    have hld : l = min (st.chunkSize - st.chunkIndex) len := rfl
    rw [hld] at ih
    rw [Read_copy hn hci hgd]
    have hlt : st.chunkIndex < st.chunkSize := by omega
    have hlen : min (st.chunkSize - st.chunkIndex) len ≤
        (st.chunk.drop st.chunkIndex).length := by
      simp only [List.length_drop]
      omega
    have hrep' : Represents c
        { st with chunkIndex := st.chunkIndex + min (st.chunkSize - st.chunkIndex) len }
        (L.drop (min (st.chunkSize - st.chunkIndex) len)) := by
      refine ⟨zs, hpos, hd, hg, by simp; omega, hcs, ?_⟩
      rw [← hL, List.drop_append_eq_append_drop]
      have hz0 : min (st.chunkSize - st.chunkIndex) len -
          (st.chunk.drop st.chunkIndex).length = 0 := by omega
      rw [hz0, List.drop_zero, List.drop_drop]
    obtain ⟨ih1, ih2⟩ := ih (L.drop (min (st.chunkSize - st.chunkIndex) len)) hrep'
    constructor
    · rw [ih1]
      have hsum : min (st.chunkSize - st.chunkIndex) len +
          (len - min (st.chunkSize - st.chunkIndex) len) = len := by omega
      conv_rhs => rw [← hsum, List.take_add]
      rw [← hL, List.take_append_eq_append_take]
      have hz0 : min (st.chunkSize - st.chunkIndex) len -
          (st.chunk.drop st.chunkIndex).length = 0 := by omega
      rw [hz0, List.take_zero, List.append_nil]
    · rw [List.drop_drop] at ih2
      have hsum : min (st.chunkSize - st.chunkIndex) len +
          (len - min (st.chunkSize - st.chunkIndex) len) = len := by omega
      rw [hsum] at ih2
      exact ih2

/-- A Represents state has sound buffer bookkeeping. -/
theorem Represents_bufOk {c : Codec} {st : RZipReader} {L : List Nat}
    (h : Represents c st L) : BufOk st := by
  obtain ⟨zs, -, -, -, h1, h2, -⟩ := h
  exact ⟨h1, h2⟩

/-- A sequence of Read calls on a state holding L returns successive slices
of L: their concatenation is the first (sum of requests) bytes of L. -/
theorem readSeq_spec (c : Codec) :
    ∀ (ns : List Nat) (st : RZipReader) (L : List Nat), Represents c st L →
      ((readSeq c st ns).1).flatten = L.take ns.sum ∧
      Represents c (readSeq c st ns).2 (L.drop ns.sum) := by
  intro ns
  induction ns with
  | nil =>
    intro st L hrep
    exact ⟨by simp [readSeq], by simpa [readSeq] using hrep⟩
  | cons n rest ih =>
    intro st L hrep
    obtain ⟨h1, h2⟩ := Read_spec c st n L hrep
    obtain ⟨ih1, ih2⟩ := ih (Read c st n).2 (L.drop n) h2
    constructor
    · show ((Read c st n).1 :: (readSeq c (Read c st n).2 rest).1).flatten =
        L.take ((n :: rest).sum)
      simp only [List.flatten_cons, List.sum_cons]
      rw [h1, ih1, ← List.take_add]
    · show Represents c (readSeq c (Read c st n).2 rest).2 (L.drop ((n :: rest).sum))
      simp only [List.sum_cons]
      rw [List.drop_drop] at ih2
      exact ih2

/-- Two reader states holding the same logical stream are observationally
equivalent under every sequence of Read and Skip calls. -/
theorem runOps_congr (c : Codec) :
    ∀ (ops : List ROp) (st₁ st₂ : RZipReader) (L : List Nat),
      Represents c st₁ L → Represents c st₂ L →
      (runOps c st₁ ops).1 = (runOps c st₂ ops).1 := by
  intro ops
  induction ops with
  | nil =>
    intro st₁ st₂ L h₁ h₂
    rfl
  | cons op rest ih =>
    intro st₁ st₂ L h₁ h₂
    cases op with
    | read n =>
      obtain ⟨o₁, r₁⟩ := Read_spec c st₁ n L h₁
      obtain ⟨o₂, r₂⟩ := Read_spec c st₂ n L h₂
      show ((Read c st₁ n).1, (Read c st₁ n).1.length) ::
          (runOps c (Read c st₁ n).2 rest).1 =
        ((Read c st₂ n).1, (Read c st₂ n).1.length) ::
          (runOps c (Read c st₂ n).2 rest).1
      rw [o₁, o₂, ih (Read c st₁ n).2 (Read c st₂ n).2 (L.drop n) r₁ r₂]
    | skip n =>
      obtain ⟨o₁, r₁⟩ := Read_spec c st₁ n L h₁
      obtain ⟨o₂, r₂⟩ := Read_spec c st₂ n L h₂
      show (([], (Skip c st₁ n).1) :: (runOps c (Skip c st₁ n).2 rest).1 :
          List (List Nat × Nat)) =
        ([], (Skip c st₂ n).1) :: (runOps c (Skip c st₂ n).2 rest).1
      rw [Skip_eq_read c st₁ n (Represents_bufOk h₁),
          Skip_eq_read c st₂ n (Represents_bufOk h₂)]
      dsimp only
      rw [o₁, o₂, ih (Read c st₁ n).2 (Read c st₂ n).2 (L.drop n) r₁ r₂]

/-! Step lemmas for availFrames. -/

theorem AF_fail4 {c : Codec} {mcs : Nat} {data : List Nat} {pos : Nat}
    (h1 : freadBytes data pos 4 = none) :
    availFrames c mcs data pos = [] := by
  unfold availFrames
  rw [h1]

theorem AF_zero {c : Codec} {mcs : Nat} {data : List Nat} {pos : Nat}
    {bs : List Nat} {p1 : Nat}
    (h1 : freadBytes data pos 4 = some (bs, p1)) (hz : leVal bs = 0) :
    availFrames c mcs data pos = availFrames c mcs data p1 := by
  conv_lhs => unfold availFrames
  rw [h1]
  simp [hz]

theorem AF_failPayload {c : Codec} {mcs : Nat} {data : List Nat} {pos : Nat}
    {bs : List Nat} {p1 : Nat}
    (h1 : freadBytes data pos 4 = some (bs, p1)) (hz : leVal bs ≠ 0)
    (h2 : freadBytes data p1 (leVal bs) = none) :
    availFrames c mcs data pos = [] := by
  unfold availFrames
  rw [h1]
  simp [hz]
  rw [h2]

theorem AF_failDecomp {c : Codec} {mcs : Nat} {data : List Nat} {pos : Nat}
    {bs zbs : List Nat} {p1 p2 : Nat}
    (h1 : freadBytes data pos 4 = some (bs, p1)) (hz : leVal bs ≠ 0)
    (h2 : freadBytes data p1 (leVal bs) = some (zbs, p2))
    (h3 : c.decomp zbs = none) :
    availFrames c mcs data pos = [] := by
  unfold availFrames
  rw [h1]
  simp [hz]
  rw [h2]
  simp
  rw [h3]

theorem AF_failBound {c : Codec} {mcs : Nat} {data : List Nat} {pos : Nat}
    {bs zbs d : List Nat} {p1 p2 : Nat}
    (h1 : freadBytes data pos 4 = some (bs, p1)) (hz : leVal bs ≠ 0)
    (h2 : freadBytes data p1 (leVal bs) = some (zbs, p2))
    (h3 : c.decomp zbs = some d) (h4 : ¬ d.length ≤ mcs) :
    availFrames c mcs data pos = [] := by
  unfold availFrames
  rw [h1]
  simp [hz]
  rw [h2]
  simp
  rw [h3]
  simp [h4]

theorem AF_step {c : Codec} {mcs : Nat} {data : List Nat} {pos : Nat}
    {bs zbs d : List Nat} {p1 p2 : Nat}
    (h1 : freadBytes data pos 4 = some (bs, p1)) (hz : leVal bs ≠ 0)
    (h2 : freadBytes data p1 (leVal bs) = some (zbs, p2))
    (h3 : c.decomp zbs = some d) (h4 : d.length ≤ mcs) :
    availFrames c mcs data pos = d ++ availFrames c mcs data p2 := by
  conv_lhs => unfold availFrames
  rw [h1]
  simp [hz]
  rw [h2]
  simp
  rw [h3]
  simp [h4]

theorem take_append_split (x A : List Nat) (len : Nat) :
    (x ++ A).take len = x.take (min x.length len) ++
      (x.drop (min x.length len) ++ A).take (len - min x.length len) := by
  rw [List.take_append_eq_append_take, List.take_append_eq_append_take]
  have hsum : min x.length len + (len - min x.length len) = len := by omega
  have h1 : x.take len = x.take (min x.length len) ++
      (x.drop (min x.length len)).take (len - min x.length len) := by
    conv_lhs => rw [← hsum, List.take_add]
  rw [h1, List.append_assoc]
  congr 2
  rw [List.length_drop]
  congr 1
  omega

/-- Read returns exactly the first len bytes of whatever the file can still
deliver before its first failure point; nothing is fabricated. -/
theorem Read_avail (c : Codec) :
    ∀ (st : RZipReader) (len : Nat), BufOk st →
      (Read c st len).1 = (avail c st).take len := by
  intro st len
  induction st, len using Read.induct c with
  | case1 st =>
    intro _
    rw [Read_zero]
    simp
  | case2 st len hn hci h1 =>
    intro hb
    rw [Read_fail4 hn hci h1]
    unfold avail
    rw [AF_fail4 h1, hci, hb.2, List.drop_length]
    simp
  | case3 st len hn hci st0 bs p1 h1 hz ih =>
    intro hb
    rw [Read_zeroFrame hn hci h1 hz]
    rw [ih ⟨Nat.le_refl 0, rfl⟩]
    unfold avail
    rw [AF_zero h1 hz, hci, hb.2, List.drop_length]
    simp
  | case4 st len hn hci bs p1 h1 hz h2 =>
    intro hb
    rw [Read_failPayload hn hci h1 hz h2]
    unfold avail
    rw [AF_failPayload h1 hz h2, hci, hb.2, List.drop_length]
    simp
  | case5 st len hn hci bs p1 h1 hz zbs p2 h2 h3 =>
    intro hb
    rw [Read_failDecomp hn hci h1 hz h2 h3]
    unfold avail
    rw [AF_failDecomp h1 hz h2 h3, hci, hb.2, List.drop_length]
    simp
  | case6 st len hn hci st0 bs p1 h1 hz zbs p2 h2 d h3 h4 ih =>
    intro hb
    rw [Read_refill hn hci h1 hz h2 h3 h4]
    rw [ih ⟨Nat.zero_le _, rfl⟩]
    unfold avail
    rw [AF_step h1 hz h2 h3 h4, hci, hb.2, List.drop_length]
    simp
  | case7 st len hn hci bs p1 h1 hz zbs p2 h2 d h3 h4 =>
    intro hb
    rw [Read_failBound hn hci h1 hz h2 h3 h4]
    unfold avail
    rw [AF_failBound h1 hz h2 h3 h4, hci, hb.2, List.drop_length]
    simp
  | case8 st len hn hci hg =>
    intro hb
    exact absurd hb.1 (by omega)
  | case9 st len hn hci hgd l ih =>
    intro hb
    have hld : l = min (st.chunkSize - st.chunkIndex) len := rfl
    rw [hld] at ih
    rw [Read_copy hn hci hgd]
    rw [ih ⟨by simp; omega, by simpa using hb.2⟩]
    unfold avail
    dsimp only
    have hdl : (st.chunk.drop st.chunkIndex).length = st.chunkSize - st.chunkIndex := by
      rw [List.length_drop, ← hb.2]
    rw [take_append_split (st.chunk.drop st.chunkIndex)
      (availFrames c st.maxChunkSize st.data st.pos) len]
    rw [hdl, List.drop_drop]

/-- C8: short return on failure: Read returns exactly the prefix (of the
requested length) of what the file actually delivers before the first
failure — a failed 4-byte length read, a failed compressed-payload read, or
a non-ok codec status all end the call with exactly the bytes already
produced, never with zero-fill and never reporting the full requested
length; Skip likewise returns exactly the count it could consume. -/
theorem read_short_on_failure (c : Codec) (st : RZipReader) (len : Nat)
    (hb : st.chunkIndex ≤ st.chunkSize ∧ st.chunkSize = st.chunk.length) :
    (Read c st len).1 = (avail c st).take len ∧
    (Skip c st len).1 = ((avail c st).take len).length := by
  have h1 := Read_avail c st len hb
  refine ⟨h1, ?_⟩
  rw [Skip_eq_read c st len hb]
  dsimp only
  rw [h1]

/-- C8 witness: a file holding one complete frame and then a frame whose
announced payload is longer than the remaining bytes. -/
theorem read_short_on_failure_witness :
    ((0 : Nat) ≤ 0 ∧ (0 : Nat) = ([] : List Nat).length) ∧
    ((Read sampleCodec
        { data := encodeFrame [255, 10] ++ [5, 0, 0, 0, 1, 2], pos := 0,
          maxChunkSize := 2, size := 1, chunk := [], chunkIndex := 0, chunkSize := 0 } 3).1 =
      (avail sampleCodec
        { data := encodeFrame [255, 10] ++ [5, 0, 0, 0, 1, 2], pos := 0,
          maxChunkSize := 2, size := 1, chunk := [], chunkIndex := 0, chunkSize := 0 }).take 3 ∧
     (Skip sampleCodec
        { data := encodeFrame [255, 10] ++ [5, 0, 0, 0, 1, 2], pos := 0,
          maxChunkSize := 2, size := 1, chunk := [], chunkIndex := 0, chunkSize := 0 } 3).1 =
      ((avail sampleCodec
        { data := encodeFrame [255, 10] ++ [5, 0, 0, 0, 1, 2], pos := 0,
          maxChunkSize := 2, size := 1, chunk := [], chunkIndex := 0, chunkSize := 0 }).take 3).length) :=
  ⟨⟨Nat.le_refl 0, rfl⟩,
    read_short_on_failure sampleCodec
      { data := encodeFrame [255, 10] ++ [5, 0, 0, 0, 1, 2], pos := 0,
        maxChunkSize := 2, size := 1, chunk := [], chunkIndex := 0, chunkSize := 0 } 3
      ⟨Nat.le_refl 0, rfl⟩⟩

/-- C4: a chunk frame whose 4-byte compressed length is zero (encodeFrame []
is exactly the four bytes 0,0,0,0) is transparent: a reader over frames
zs₁ ++ zs₂ and a reader over the same frames with a zero-length frame
inserted between them produce identical observations (the bytes of every
Read and the count of every Skip) under every sequence of Read/Skip calls,
from every position (any consumed prefix pre and any buffer state b, ci).
The zero-length branch of Read and Skip advances past the 4 length bytes
without reading a payload and without calling the codec, as the statement's
quantification over the codec for the inserted frame reflects. -/
theorem zeroFrame_transparent (c : Codec) (mcs sz₁ sz₂ : Nat)
    (pre₁ pre₂ b : List Nat) (ci : Nat) (zs₁ zs₂ : List (List Nat))
    (ops : List ROp)
    (hg : ∀ z ∈ zs₁ ++ zs₂, GoodFrame c mcs z) (hci : ci ≤ b.length) :
    (runOps c { data := pre₁ ++ encodeFrames (zs₁ ++ zs₂), pos := pre₁.length,
                maxChunkSize := mcs, size := sz₁, chunk := b, chunkIndex := ci,
                chunkSize := b.length } ops).1 =
    (runOps c { data := pre₂ ++ encodeFrames (zs₁ ++ [[]] ++ zs₂), pos := pre₂.length,
                maxChunkSize := mcs, size := sz₂, chunk := b, chunkIndex := ci,
                chunkSize := b.length } ops).1 := by
  apply runOps_congr c ops _ _ (b.drop ci ++ logicalStream c mcs (zs₁ ++ zs₂))
  · refine ⟨zs₁ ++ zs₂, by simp, ?_, hg, hci, rfl, rfl⟩
    show (pre₁ ++ encodeFrames (zs₁ ++ zs₂)).drop pre₁.length = encodeFrames (zs₁ ++ zs₂)
    exact List.drop_left pre₁ _
  · refine ⟨zs₁ ++ [[]] ++ zs₂, by simp, ?_, ?_, hci, rfl, ?_⟩
    · show (pre₂ ++ encodeFrames (zs₁ ++ [[]] ++ zs₂)).drop pre₂.length =
        encodeFrames (zs₁ ++ [[]] ++ zs₂)
      exact List.drop_left pre₂ _
    · intro z hz
      simp only [List.mem_append] at hz
      rcases hz with (hz | hz) | hz
      · exact hg z (by simp [hz])
      · simp only [List.mem_singleton] at hz
        subst hz
        exact ⟨by norm_num, by simp [frameOut]⟩
      · exact hg z (by simp [hz])
    · show b.drop ci ++ logicalStream c mcs (zs₁ ++ [[]] ++ zs₂) =
        b.drop ci ++ logicalStream c mcs (zs₁ ++ zs₂)
      rw [logicalStream_append, logicalStream_append, logicalStream_append]
      simp [logicalStream_cons, logicalStream_nil, frameOut]

/-- C4 witness: two one-byte frames with a zero frame inserted between
them, exercised by a Read then a Skip then a Read. -/
theorem zeroFrame_transparent_witness :
    (∀ z ∈ ([[255, 10]] ++ [[255, 20]] : List (List Nat)),
      GoodFrame sampleCodec 2 z) ∧ (0 : Nat) ≤ ([] : List Nat).length ∧
    (runOps sampleCodec
      { data := [9] ++ encodeFrames ([[255, 10]] ++ [[255, 20]]), pos := [9].length,
        maxChunkSize := 2, size := 0, chunk := [], chunkIndex := 0,
        chunkSize := ([] : List Nat).length }
      [ROp.read 1, ROp.skip 0, ROp.read 1]).1 =
    (runOps sampleCodec
      { data := [] ++ encodeFrames ([[255, 10]] ++ [[]] ++ [[255, 20]]), pos := ([] : List Nat).length,
        maxChunkSize := 2, size := 7, chunk := [], chunkIndex := 0,
        chunkSize := ([] : List Nat).length }
      [ROp.read 1, ROp.skip 0, ROp.read 1]).1 :=
  ⟨by intro z hz; fin_cases hz <;> exact ⟨by decide, by decide⟩, Nat.le_refl 0,
    zeroFrame_transparent sampleCodec 2 0 7 [9] [] [] 0 [[255, 10]] [[255, 20]]
      [ROp.read 1, ROp.skip 0, ROp.read 1]
      (by intro z hz; fin_cases hz <;> exact ⟨by decide, by decide⟩) (Nat.le_refl 0)⟩

theorem length_header20 (m s : Nat) (rest : List Nat) :
    (RZipHeader ++ (u32le m ++ (u64le s ++ rest))).length = 20 + rest.length := by
  simp only [List.length_append, length_RZipHeader, length_u32le, length_u64le]
  omega

theorem drop_header20 (m s : Nat) (rest : List Nat) :
    (RZipHeader ++ (u32le m ++ (u64le s ++ rest))).drop 20 = rest := by
  rw [← List.append_assoc, ← List.append_assoc]
  have hl : ((RZipHeader ++ u32le m) ++ u64le s).length = 20 := by
    simp only [List.length_append, length_RZipHeader, length_u32le, length_u64le]
  rw [← hl, List.drop_left]

theorem logicalStream_flatten (c : Codec) (hcomp : CompOk c (1024 * 1024))
    (hrt : RoundTripOk c) (ws : List (List Nat)) :
    logicalStream c (1024 * 1024)
        ((ws.map fun j => compChunks c (1024 * 1024) j).flatten) = ws.flatten := by
  induction ws with
  | nil => simp [logicalStream]
  | cons i rest ih =>
    rw [List.map_cons, List.flatten_cons, logicalStream_append,
      logicalStream_compChunks c (1024 * 1024) (by norm_num) hcomp hrt, ih,
      List.flatten_cons]

theorem goodFrames_flatten (c : Codec) (hcomp : CompOk c (1024 * 1024))
    (hrt : RoundTripOk c) (ws : List (List Nat)) :
    ∀ z ∈ (ws.map fun j => compChunks c (1024 * 1024) j).flatten,
      GoodFrame c (1024 * 1024) z := by
  intro z hz
  rw [List.mem_flatten] at hz
  obtain ⟨l, hl, hzl⟩ := hz
  rw [List.mem_map] at hl
  obtain ⟨i, -, rfl⟩ := hl
  exact compChunks_goodFrames c (1024 * 1024) (by norm_num) hcomp hrt i z hzl

theorem OpenW_none : OpenW none = some w0def := by decide

/-- Re-opening a freshly-written archive and reading it back in arbitrary
slices recovers the written stream, provided the total size fits 32 bits. -/
theorem reopen_reads (c : Codec) (hcomp : CompOk c (1024 * 1024))
    (hrt : RoundTripOk c) (ws : List (List Nat)) (ns : List Nat)
    (hlt : ws.flatten.length < 2 ^ 32) (hsum : ns.sum = ws.flatten.length) :
    Option.map (fun rd => ((readSeq c rd ns).1).flatten)
      (OpenRead (RZipHeader ++ (u32le (1024 * 1024) ++
        (u64le ws.flatten.length ++
          encodeFrames ((ws.map fun j => compChunks c (1024 * 1024) j).flatten))))) =
      some ws.flatten := by
  have hns : ¬ 2 ^ 32 ≤ ws.flatten.length := by omega
  have hopen := OpenRead_parse (1024 * 1024) ws.flatten.length
    (encodeFrames ((ws.map fun j => compChunks c (1024 * 1024) j).flatten))
    (by norm_num) (lt_trans hlt (by norm_num))
  rw [if_neg hns, if_neg hns] at hopen
  rw [hopen, Option.map_some']
  have hrep : Represents c
      { data := RZipHeader ++ (u32le (1024 * 1024) ++
          (u64le ws.flatten.length ++
            encodeFrames ((ws.map fun j => compChunks c (1024 * 1024) j).flatten))),
        pos := 20, maxChunkSize := 1024 * 1024, size := ws.flatten.length,
        chunk := [], chunkIndex := 0, chunkSize := 0 } ws.flatten := by
    refine ⟨(ws.map fun j => compChunks c (1024 * 1024) j).flatten, ?_, ?_, ?_,
      Nat.le_refl 0, rfl, ?_⟩
    · show 20 ≤ (RZipHeader ++ (u32le (1024 * 1024) ++ (u64le ws.flatten.length ++
        encodeFrames ((ws.map fun j => compChunks c (1024 * 1024) j).flatten)))).length
      rw [length_header20]
      omega
    · exact drop_header20 _ _ _
    · intro z hz
      exact goodFrames_flatten c hcomp hrt ws z hz
    · show logicalStream c (1024 * 1024)
        ((ws.map fun j => compChunks c (1024 * 1024) j).flatten) = ws.flatten
      exact logicalStream_flatten c hcomp hrt ws
  obtain ⟨hrs, -⟩ := readSeq_spec c ns _ _ hrep
  rw [hrs, hsum, List.take_length]

/-- C1 counterexample: the claim quantifies over every sequence of Write
calls, including the empty one (S = []). In that case Close writes nothing
beyond the header — the fseek reserving the size field does not extend the
file — so the file lacks the 8-byte size field, re-opening it in read mode
fails, and the required read-back of S cannot even begin. -/
theorem roundTrip_cex :
    ((OpenW none).bind fun w0 =>
      (WriteAll sampleCodec w0 []).map fun wF => (OpenRead (closeW wF)).isSome) =
      some false := by decide

/-- C1 amended: round-trip correctness holds once at least one Write call is
made (the first Write materializes the size field) and the total payload is
smaller than 2^32 (so the legacy 32-bit size rule does not rewind the
reader): for every codec meeting the zlib contract, writing any nonempty
sequence of buffers with |S| < 2^32, closing, re-opening in read mode and
issuing any sequence of Read calls whose requested lengths sum to |S| yields
exactly the bytes of S, in order. -/
theorem roundTrip_amended (c : Codec) (writes : List (List Nat)) (ns : List Nat)
    (hcomp : CompOk c (1024 * 1024)) (hrt : RoundTripOk c)
    (hne : writes ≠ []) (hlt : writes.flatten.length < 2 ^ 32)
    (hsum : ns.sum = writes.flatten.length) :
    ((OpenW none).bind fun w0 =>
      (WriteAll c w0 writes).bind fun wF =>
        (OpenRead (closeW wF)).map fun rd => ((readSeq c rd ns).1).flatten) =
      some writes.flatten := by
  obtain ⟨i, rest, rfl⟩ := List.exists_cons_of_ne_nil hne
  obtain ⟨hw1, hwst1⟩ := Write_w0 c hcomp i
  obtain ⟨wF, hwa, hwstF⟩ := WriteAll_wst c hcomp rest _ _ _ hwst1
  obtain ⟨hcap, hmcs, hsz, hdata, hpos⟩ := hwstF
  have hWA : WriteAll c w0def (i :: rest) = some wF := by
    unfold WriteAll
    rw [hw1]
    exact hwa
  rw [show i.length + rest.flatten.length = (i :: rest).flatten.length by simp,
    show compChunks c (1024 * 1024) i ++
        (rest.map fun j => compChunks c (1024 * 1024) j).flatten =
        ((i :: rest).map fun j => compChunks c (1024 * 1024) j).flatten by simp]
    at hdata
  rw [OpenW_none, Option.some_bind, hWA, Option.some_bind,
    show closeW wF = wF.data from rfl, hdata]
  exact reopen_reads c hcomp hrt (i :: rest) ns hlt hsum

/-- C1 witness for the amended claim: two bytes written in one call, read
back as two one-byte Reads. -/
theorem roundTrip_amended_witness :
    (CompOk sampleCodec (1024 * 1024) ∧ RoundTripOk sampleCodec ∧
      ([[7, 8]] : List (List Nat)) ≠ [] ∧
      ([[7, 8]] : List (List Nat)).flatten.length < 2 ^ 32 ∧
      ([1, 1] : List Nat).sum = ([[7, 8]] : List (List Nat)).flatten.length) ∧
    ((OpenW none).bind fun w0 =>
      (WriteAll sampleCodec w0 [[7, 8]]).bind fun wF =>
        (OpenRead (closeW wF)).map fun rd =>
          ((readSeq sampleCodec rd [1, 1]).1).flatten) =
      some ([[7, 8]] : List (List Nat)).flatten :=
  ⟨⟨sampleCodec_compOk, sampleCodec_roundTrip, by decide, by decide, by decide⟩,
    roundTrip_amended sampleCodec [[7, 8]] [1, 1] sampleCodec_compOk
      sampleCodec_roundTrip (by decide) (by decide) (by decide)⟩
